import Mathlib

/-!
Verification development for the layer-manager core of rpi-image-gen: the
multi-writer environment-variable resolver and its set policies, the
three-phase apply, the dependency-ordered build-order computation with
provider indexing and validation, the metadata placeholder substitution,
and the validation-rule parser.  Every definition below is a shallow
embedding of the corresponding Python function in `src/site/env_types.py`,
`src/site/layer_manager.py`, `src/site/metadata_parser.py` or
`src/site/validators.py`; the Python process environment is passed around
explicitly as a total map.
-/

/-- Process environment: a total map from variable names to an optional
value, mirroring `os.environ` membership (`none` = unset) and lookup. -/
def Env : Type := String → Option String

/-- Pointwise update, mirroring `os.environ[name] = value`. -/
def envSet (env : Env) (k v : String) : Env :=
  fun n => if n = k then some v else env n

/-- Whitespace characters stripped by Python's `str.strip()` (the ASCII
ones the metadata system can meet; the exotic `\x7bvertical tab, form
feed\x7d` pair and Unicode spaces do not occur in rule strings). -/
def isSpaceChar (c : Char) : Bool :=
  c = ' ' || c = '\t' || c = '\n' || c = '\r'

/-- Python `str.strip()` over the character list (structural recursion, so
concrete witnesses evaluate inside the kernel). -/
def trimChars (cs : List Char) : List Char :=
  ((cs.dropWhile isSpaceChar).reverse.dropWhile isSpaceChar).reverse

/-- Python `str.strip()`. -/
def strTrim (s : String) : String := ⟨trimChars s.data⟩

/-- Python `str.startswith` over character lists. -/
def startsWithChars : List Char → List Char → Bool
  | _, [] => true
  | [], _ :: _ => false
  | c :: cs, p :: ps => c = p && startsWithChars cs ps

/-- Python `str.startswith`. -/
def strStartsWith (s p : String) : Bool := startsWithChars s.data p.data

/-- Python `sep in str` for a one-character separator. -/
def strContainsChar (s : String) (t : Char) : Bool := s.data.contains t

/-- Python `str.split(sep)` over character lists, one-character separator:
empty pieces are kept, and the empty string yields one empty piece. -/
def splitOnChar (sep : Char) : List Char → List (List Char)
  | [] => [[]]
  | c :: rest =>
    if c = sep then [] :: splitOnChar sep rest
    else
      match splitOnChar sep rest with
      | h :: t => (c :: h) :: t
      | [] => [[c]]

/-- Python `str.split(sep)` with a one-character separator. -/
def strSplitOn (sep : Char) (s : String) : List String :=
  (splitOnChar sep s.data).map (fun cs => ⟨cs⟩)

/-- Python slicing `s[n:]`. -/
def strDrop (s : String) (n : Nat) : String := ⟨s.data.drop n⟩

/-- Python `str.lower()` on the ASCII range. -/
def strToLower (s : String) : String := ⟨s.data.map Char.toLower⟩

/-- Parsed validator, mirroring the concrete `BaseValidator` subclasses of
`validators.py`: `StringValidator(allow_empty, allow_unset)`,
`BooleanValidator`, `IntegerValidator(min_val, max_val)`, `RegexValidator`,
`EnumValidator(options)` and `SizeValidator`. -/
inductive ParsedValidator where
  | string (allow_empty : Bool) (allow_unset : Bool)
  | bool
  | int (min_val : Option Int) (max_val : Option Int)
  | regex (pattern : String)
  | enum (options : List String)
  | size
  deriving DecidableEq, Repr

/-- Decimal integer parsing, modelling the Python builtin `int(value)` on
the inputs the metadata system passes it: optional surrounding whitespace,
an optional single sign, then decimal digits (Python's underscore digit
grouping is not modelled). -/
def parseInt (s : String) : Option Int :=
  let t := trimChars s.data
  let core := if startsWithChars t ['-'] || startsWithChars t ['+'] then t.drop 1 else t
  if core.length > 0 ∧ core.all (fun c => c.isDigit) then
    let n : Nat := core.foldl (fun acc c => acc * 10 + (c.toNat - 48)) 0
    some (if startsWithChars t ['-'] then -(n : Int) else (n : Int))
  else none

/-- BooleanValidator.validate. -/
def validateBool (value : Option String) : List String :=
  match value with
  | none => ["Value cannot be None"]
  | some v =>
    if strToLower v ∈ ["true", "false", "1", "0", "yes", "no", "y", "n"] then []
    else ["Value '" ++ v ++ "' is not a valid boolean."]

/-- IntegerValidator.validate, maximum check (runs after the minimum
check). -/
def intMaxCheck (max_val : Option Int) (n : Int) : List String :=
  match max_val with
  | some m =>
    if m < n then ["Value '" ++ toString n ++ "' is above maximum " ++ toString m ++ "."]
    else []
  | none => []

/-- IntegerValidator.validate: parse the value with `int(...)`, then bound
checks; the message interpolates the parsed integer. -/
def validateInt (min_val max_val : Option Int) (value : Option String) : List String :=
  match value with
  | none => ["Value cannot be None"]
  | some v =>
    match parseInt v with
    | none => ["Value '" ++ v ++ "' is not a valid integer."]
    | some n =>
      match min_val with
      | some m =>
        if n < m then ["Value '" ++ toString n ++ "' is below minimum " ++ toString m ++ "."]
        else intMaxCheck max_val n
      | none => intMaxCheck max_val n

/-- StringValidator.validate. -/
def validateString (allow_empty allow_unset : Bool) (value : Option String) : List String :=
  match value with
  | none => if allow_unset then [] else ["String value cannot be None/unset"]
  | some v =>
    if v = "" ∧ allow_empty = false then ["String value cannot be empty"] else []

/-- EnumValidator.validate. -/
def validateEnum (options : List String) (value : Option String) : List String :=
  match value with
  | none => ["Value cannot be None"]
  | some v =>
    if v ∈ options then []
    else ["Value '" ++ v ++ "' is not one of: " ++ String.intercalate ", " options]

/-- Size-unit suffix characters accepted by SizeValidator's pattern. -/
def isSizeSuffix (c : Char) : Bool :=
  c = 'k' || c = 'K' || c = 'm' || c = 'M' || c = 'g' || c = 'G' || c = 's' || c = 'S'

/-- First alternative of SizeValidator's pattern: one or more digits with an
optional unit suffix. -/
def sizeForm1 (cs : List Char) : Bool :=
  let ds := cs.takeWhile Char.isDigit
  match ds, cs.dropWhile Char.isDigit with
  | [], _ => false
  | _ :: _, [] => true
  | _ :: _, [c] => isSizeSuffix c
  | _, _ => false

/-- Second alternative of SizeValidator's pattern: a nonzero digit, more
digits, then a percent sign. -/
def sizeForm2 (cs : List Char) : Bool :=
  match cs with
  | [] => false
  | c :: rest =>
    (('1' ≤ c && c ≤ '9') : Bool) &&
      (match rest.dropWhile Char.isDigit with
       | ['%'] => true
       | _ => false)

/-- SizeValidator.validate (full match of the size pattern). -/
def validateSize (value : Option String) : List String :=
  match value with
  | none => ["Value cannot be None"]
  | some v =>
    if sizeForm1 v.data || sizeForm2 v.data then []
    else ["Value '" ++ v ++ "' is not a valid size format"]

/-- Validator dispatch.  RegexValidator.validate (a PCRE full match) is not
modelled — no claim exercises it — so the `regex` arm reports no errors. -/
def ParsedValidator.validate : ParsedValidator → Option String → List String
  | .string ae au, v => validateString ae au v
  | .bool, v => validateBool v
  | .int mn mx, v => validateInt mn mx v
  | .regex _, _ => []
  | .enum opts, v => validateEnum opts v
  | .size, v => validateSize v

/-- parse_validator from `validators.py`: the validation-rule DSL parser.
`Except.error` models a raised `ValueError`.  Python's `split(":", 1)[1]`
on a string known to start with the keyword and a colon is written as
`String.drop` of the keyword's length; the validity check a compiled regex
pattern gets in `RegexValidator.__init__` is not modelled (no claim
exercises an invalid pattern). -/
def parse_validator (rule_str : String) : Except String ParsedValidator :=
  if rule_str = "" then .error "Empty rule string"
  else
    let r := strTrim rule_str
    if r = "string" then .ok (.string false false)
    else if r = "string-or-empty" then .ok (.string true false)
    else if r = "string-or-unset" then .ok (.string false true)
    else if r = "bool" then .ok .bool
    else if r = "int" then .ok (.int none none)
    else if strStartsWith r "int:" then
      match ((strSplitOn '-' (strDrop r 4)).map parseInt) with
      | [some mn, some mx] => .ok (.int (some mn) (some mx))
      | _ => .error ("Invalid int range format '" ++ r ++ "'")
    else if strStartsWith r "regex:" then
      .ok (.regex (strDrop r 6))
    else if strStartsWith r "keywords:" then
      .ok (.enum ((strSplitOn ',' (strDrop r 9)).map strTrim))
    else if r = "size" then .ok .size
    else if strContainsChar r ',' then
      .ok (.enum (((strSplitOn ',' r).map strTrim).filter (fun x => x ≠ "")))
    else if r ∈ ["string", "string-or-empty", "string-or-unset", "bool", "int", "size"] then
      .error ("Unknown validation rule: " ++ r)
    else
      .error ("Single value '" ++ r ++ "' must use trailing comma ('" ++ r
        ++ ",') or keywords: prefix ('keywords:" ++ r ++ "')")

/-- EnvVariable from `env_types.py`.  `validator` is `none` when the
definition carries no validation rule; `position` is the layer's index in
the current build order. -/
structure EnvVar where
  name : String
  value : String
  description : String
  required : Bool
  validator : Option ParsedValidator
  validation_rule : String
  set_policy : String
  source_layer : String
  position : Nat
  deriving DecidableEq, Repr

/-- VariableResolver._get_first_by_position: Python
`min(definitions, key=position)` returns the first element attaining the
minimal position. -/
def getFirstByPosition : List EnvVar → Option EnvVar
  | [] => none
  | d :: ds => some (ds.foldl (fun best x => if x.position < best.position then x else best) d)

/-- VariableResolver._get_last_by_position: Python
`max(definitions, key=position)` returns the first element attaining the
maximal position. -/
def getLastByPosition : List EnvVar → Option EnvVar
  | [] => none
  | d :: ds => some (ds.foldl (fun best x => if best.position < x.position then x else best) d)

/-- VariableResolver._resolve_single_variable: force beats immediate beats
lazy; the immediate and lazy rules apply only when the variable is unset in
the process environment. -/
def resolveSingle (env : Env) (var_name : String) (definitions : List EnvVar) : Option EnvVar :=
  let force_defs := definitions.filter (fun d => d.set_policy == "force")
  let immediate_defs := definitions.filter (fun d => d.set_policy == "immediate")
  let lazy_defs := definitions.filter (fun d => d.set_policy == "lazy")
  if force_defs ≠ [] then getLastByPosition force_defs
  else if immediate_defs ≠ [] ∧ env var_name = none then getFirstByPosition immediate_defs
  else if lazy_defs ≠ [] ∧ env var_name = none then getLastByPosition lazy_defs
  else none

/-- Synthesized entry for a variable that resolves to nothing but is
present in the environment (`VariableResolver.resolve`): policy
`already_set`, the environment's value, and the first definition's
descriptive metadata; `validation_rule` is not forwarded, so it takes
`EnvVariable.__init__`'s empty-string default. -/
def mkAlreadySet (var_name env_value : String) (first_def : EnvVar) : EnvVar :=
  { name := var_name
    value := env_value
    description := first_def.description
    required := first_def.required
    validator := first_def.validator
    validation_rule := ""
    set_policy := "already_set"
    source_layer := first_def.source_layer
    position := first_def.position }

/-- Earliest position among a variable's definitions
(`min(d.position for d in definitions)`; the empty case never occurs). -/
def earliestPosition : List EnvVar → Nat
  | [] => 0
  | d :: ds => ds.foldl (fun m x => min m x.position) d.position

/-- Ordered insertion by earliest position, keeping the incoming element
before later elements with an equal key. -/
def insertByPos (x : String × List EnvVar × Nat) :
    List (String × List EnvVar × Nat) → List (String × List EnvVar × Nat)
  | [] => [x]
  | y :: ys => if x.2.2 ≤ y.2.2 then x :: y :: ys else y :: insertByPos x ys

/-- Stable sort by earliest position, modelling Python's stable
`list.sort(key=...)`. -/
def sortByEarliest : List (String × List EnvVar × Nat) → List (String × List EnvVar × Nat)
  | [] => []
  | x :: xs => insertByPos x (sortByEarliest xs)

/-- VariableResolver.resolve: drop names with no definitions, order the
rest by earliest definition position, resolve each name by the policy
rules, and synthesize an `already_set` entry for a name that resolves to
nothing but is present in the environment. -/
def resolveFull (env : Env) (variable_definitions : List (String × List EnvVar)) :
    List (String × EnvVar) :=
  let all_vars := (variable_definitions.filter (fun p => ¬ p.2.isEmpty)).map
      (fun p => (p.1, p.2, earliestPosition p.2))
  (sortByEarliest all_vars).filterMap (fun q =>
    match resolveSingle env q.1 q.2.1 with
    | some v => some (q.1, v)
    | none =>
      match env q.1, q.2.1 with
      | some w, first_def :: _ => some (q.1, mkAlreadySet q.1 w first_def)
      | _, _ => none)

/-- LayerManager._apply_resolved_variables: walk the resolved variables in
order, mutate the environment per policy, and append each actually-written
variable to the write log (the Python `OrderedDict` assignment appends,
since names are pairwise distinct within one apply). -/
def applyResolved (env : Env) (resolved : List (String × EnvVar))
    (write_log : List (String × String)) : Env × List (String × String) :=
  match resolved with
  | [] => (env, write_log)
  | (_, v) :: rest =>
    if v.set_policy = "force" then
      applyResolved (envSet env v.name v.value) rest (write_log ++ [(v.name, v.value)])
    else if v.set_policy = "immediate" then
      match env v.name with
      | none => applyResolved (envSet env v.name v.value) rest (write_log ++ [(v.name, v.value)])
      | some _ => applyResolved env rest write_log
    else if v.set_policy = "lazy" then
      match env v.name with
      | none => applyResolved (envSet env v.name v.value) rest (write_log ++ [(v.name, v.value)])
      | some _ => applyResolved env rest write_log
    else
      -- already_set and skip only print a skip message: no mutation, no log
      applyResolved env rest write_log

/-- Append a definition to its variable's list in the collected map,
creating the key at the end on first sight (Python dict insertion order). -/
def upsertDef (m : List (String × List EnvVar)) (k : String) (v : EnvVar) :
    List (String × List EnvVar) :=
  match m with
  | [] => [(k, [v])]
  | (k', vs) :: rest =>
    if k' = k then (k', vs ++ [v]) :: rest else (k', vs) :: upsertDef rest k v

/-- LayerManager._collect_all_variable_definitions: for each layer of the
build order (enumerate index = position), re-tag a copy of each of its
variables with that position and source layer — the copy does not forward
`validation_rule`, which therefore resets to the empty-string default —
and append it to that variable's definition list. -/
def collectAllVariableDefinitions (layerVars : String → List (String × EnvVar))
    (build_order : List String) : List (String × List EnvVar) :=
  build_order.enum.foldl
    (fun m pn =>
      (layerVars pn.2).foldl
        (fun m' kv =>
          upsertDef m' kv.1
            { kv.2 with validation_rule := "", source_layer := pn.2, position := pn.1 })
        m)
    []

/-- LayerManager.apply_env_vars_for_build_order, success path: an empty
build order returns `True` immediately, leaving the write log untouched;
otherwise the write log is reset and the three phases (collect, resolve,
apply) run.  The pre-flight per-layer validation can only abort before any
mutation and is not modelled. -/
def applyEnvVarsForBuildOrder (layerVars : String → List (String × EnvVar))
    (build_order : List String) (env : Env) (write_log : List (String × String)) :
    Bool × Env × List (String × String) :=
  if build_order.isEmpty then (true, env, write_log)
  else
    let defs := collectAllVariableDefinitions layerVars build_order
    let out := applyResolved env (resolveFull env defs) []
    (true, out.1, out.2)

/-- Result record of one `Metadata.set_env_vars` loop iteration. -/
structure SetResult where
  status : String
  value : Option String
  reason : String
  deriving DecidableEq, Repr

/-- Python `hasattr(validator, 'allow_unset') and validator.allow_unset`:
only `StringValidator` carries the attribute. -/
def validatorAllowsUnset : Option ParsedValidator → Bool
  | some (.string _ au) => au
  | _ => false

/-- Metadata.set_env_vars per-variable loop body (single-layer apply).  The
checks before the loop (unsupported fields, missing variable prefix) raise
before any variable is processed and are not modelled.  The result is the
new environment and the result record (`none` only for a policy string
outside the canonical four, which `_parse_set_policy` never produces). -/
def setEnvVarStep (env : Env) (var_name : String) (env_var : EnvVar) :
    Env × Option SetResult :=
  let current_value := env var_name
  if env_var.set_policy = "skip" then
    (env, some ⟨"no_set_policy", none, "marked as Set: false/skip"⟩)
  else if env_var.set_policy = "force" then
    if validatorAllowsUnset env_var.validator ∧ strTrim env_var.value = "" then
      (env, some ⟨"no_set_policy", none, "empty value with string-or-unset validation"⟩)
    else
      (envSet env var_name env_var.value,
       some ⟨"force_set", some env_var.value, "Set: force override"⟩)
  else if env_var.set_policy = "immediate" then
    match current_value with
    | none =>
      (envSet env var_name env_var.value,
       some ⟨"set", some env_var.value, "auto-set from metadata (immediate)"⟩)
    | some w => (env, some ⟨"already_set", some w, "already in environment"⟩)
  else if env_var.set_policy = "lazy" then
    match current_value with
    | none =>
      if validatorAllowsUnset env_var.validator ∧ strTrim env_var.value = "" then
        (env, some ⟨"no_set_policy", none, "empty value with string-or-unset validation"⟩)
      else
        (envSet env var_name env_var.value,
         some ⟨"set", some env_var.value, "auto-set from metadata (lazy, single layer)"⟩)
    | some w => (env, some ⟨"already_set", some w, "already in environment"⟩)
  else
    (env, none)

/-- Layer identity and relationships as `LayerManager` consumes them via
`EnvLayer.to_dict` / `get_layer_info`: name, required dependencies
(`depends`), optional dependencies (`optional_depends`, which
`EnvLayer.to_dict` currently always emits empty), capability tokens
offered (`provides`) and needed (`provider_requires`). -/
structure LayerInfo where
  name : String
  depends : List String
  optional_depends : List String
  provides : List String
  provider_requires : List String
  deriving DecidableEq, Repr

/-- Loaded layers, in load order (search-path and glob visit order). -/
abbrev Layers := List LayerInfo

/-- Lookup of a loaded layer by name (`self.layers` dict access /
`get_layer_info` returning `None` when absent). -/
def findLayer (layers : Layers) (n : String) : Option LayerInfo :=
  layers.find? (fun l => l.name == n)

/-- LayerManager.get_dependencies: hard deps, `[]` for unknown layers. -/
def getDependencies (layers : Layers) (n : String) : List String :=
  match findLayer layers n with
  | some l => l.depends
  | none => []

/-- LayerManager.get_optional_dependencies. -/
def getOptionalDependencies (layers : Layers) (n : String) : List String :=
  match findLayer layers n with
  | some l => l.optional_depends
  | none => []

/-- Provides tokens of a loaded layer, `[]` for unknown layers. -/
def providesOf (layers : Layers) (n : String) : List String :=
  match findLayer layers n with
  | some l => l.provides
  | none => []

/-- Required provider tokens of a loaded layer, `[]` for unknown layers. -/
def providerRequiresOf (layers : Layers) (n : String) : List String :=
  match findLayer layers n with
  | some l => l.provider_requires
  | none => []

/-- LayerManager._check_circular_dependencies: walk required dependencies
carrying the current path; a node already on the path closes the cycle and
the chain is returned; `[]` (wrapped in `some`) means no cycle.  The Python
recursion always terminates because the path grows at every step and only
loaded layers recurse; the `Nat` fuel makes that termination explicit
(`none` = fuel exhausted, never reached with fuel above the layer count). -/
def checkCircularFuel (layers : Layers) : Nat → String → List String → Option (List String)
  | 0, _, _ => none
  | fuel + 1, layer_name, path =>
    if layer_name ∈ path then some (path ++ [layer_name])
    else if (findLayer layers layer_name).isNone then some []
    else
      (getDependencies layers layer_name).foldl
        (fun acc dep =>
          match acc with
          | none => none
          | some cyc =>
            if cyc ≠ [] then some cyc
            else checkCircularFuel layers fuel dep (path ++ [layer_name]))
        (some [])

/-- Cycle error message formatted by `check_dependencies`. -/
def circularErrorMsg (cycle : List String) : String :=
  "Circular dependency detected: " ++ String.intercalate " -> " cycle

/-- check_missing_dependencies (inner helper of `get_build_order`): walk
required dependencies with a recursion-guard set (`checked`), raising on
the first name absent from the loaded layers.  The guard bounds recursion
depth by the layer count; the fuel makes that bound explicit (`none` =
fuel exhausted, which models the impossible case only). -/
def checkMissingFuel (layers : Layers) : Nat → String → List String →
    Option (Except String (List String))
  | 0, _, _ => none
  | fuel + 1, layer_name, checked =>
    if layer_name ∈ checked then some (.ok checked)
    else
      let checked' := checked ++ [layer_name]
      if (findLayer layers layer_name).isNone then
        some (.error ("Missing required dependency: " ++ layer_name))
      else
        (getDependencies layers layer_name).foldl
          (fun acc dep =>
            match acc with
            | some (.ok ch) => checkMissingFuel layers fuel dep ch
            | other => other)
          (some (.ok checked'))

/-- Pre-validation pass of `get_build_order`: check each target with a
fresh recursion-guard set. -/
def checkAllMissing (layers : Layers) (targets : List String) (fuel : Nat) :
    Option (Except String Unit) :=
  targets.foldl
    (fun acc t =>
      match acc with
      | some (.ok _) =>
        match checkMissingFuel layers fuel t [] with
        | none => none
        | some (.error e) => some (.error e)
        | some (.ok _) => some (.ok ())
      | other => other)
    (some (.ok ()))

/-- State of the order-construction recursion: the build order being
appended to and the processed set (kept as a list; both always hold the
same names in the same order). -/
structure BuildState where
  order : List String
  processed : List String
  deriving DecidableEq, Repr

/-- add_layer_and_deps (inner helper of `get_build_order`): depth-first,
required dependencies first in declared order, then loaded optional
dependencies, then the layer itself if not already appended.  The Python
recursion has no on-path guard, so a dependency cycle recurses forever;
`none` (fuel exhausted at every fuel) models that divergence. -/
def addLayerFuel (layers : Layers) : Nat → String → BuildState → Option BuildState
  | 0, _, _ => none
  | fuel + 1, layer_name, st =>
    if layer_name ∈ st.processed then some st
    else
      let r1 := (getDependencies layers layer_name).foldl
        (fun acc dep =>
          match acc with
          | some st' => addLayerFuel layers fuel dep st'
          | none => none)
        (some st)
      let r2 :=
        match r1 with
        | none => none
        | some st1 =>
          (getOptionalDependencies layers layer_name).foldl
            (fun acc dep =>
              match acc with
              | some st' =>
                if (findLayer layers dep).isSome then addLayerFuel layers fuel dep st'
                else some st'
              | none => none)
            (some st1)
      match r2 with
      | none => none
      | some st2 =>
        if layer_name ∈ st2.processed then some st2
        else some ⟨st2.order ++ [layer_name], st2.processed ++ [layer_name]⟩

/-- Order-construction pass of `get_build_order`: fold the targets through
`add_layer_and_deps` starting from the empty state. -/
def buildOrderPass (layers : Layers) (targets : List String) (fuel : Nat) :
    Option BuildState :=
  targets.foldl
    (fun acc t =>
      match acc with
      | some st => addLayerFuel layers fuel t st
      | none => none)
    (some ⟨[], []⟩)

/-- Scope-conflict error message of
`LayerManager._check_provider_conflicts_in_scope`. -/
def providerConflictMsg (tok existing_layer layer_name : String) : String :=
  "Provider conflict: '" ++ tok ++ "' is provided by multiple layers: "
    ++ existing_layer ++ ", " ++ layer_name

/-- LayerManager._check_provider_conflicts_in_scope: walk the scope in
order, recording each provides token's layer; a token seen twice raises
naming the recorded and the current layer. -/
def checkProviderConflictsAux (layers : Layers) (scope : List String)
    (scope_providers : List (String × String)) : Except String Unit :=
  match scope with
  | [] => .ok ()
  | layer_name :: rest =>
    match checkTokens (providesOf layers layer_name) layer_name scope_providers with
    | .error e => .error e
    | .ok sp' => checkProviderConflictsAux layers rest sp'
where
  /-- Inner loop over one layer's provides tokens, threading the scope map. -/
  checkTokens : List String → String → List (String × String) →
      Except String (List (String × String))
    | [], _, sp => .ok sp
    | tok :: toks, layer_name, sp =>
      match sp.lookup tok with
      | some existing_layer => .error (providerConflictMsg tok existing_layer layer_name)
      | none => checkTokens toks layer_name (sp ++ [(tok, layer_name)])

/-- LayerManager._check_provider_conflicts_in_scope, entry point. -/
def checkProviderConflictsInScope (layers : Layers) (layer_names : List String) :
    Except String Unit :=
  checkProviderConflictsAux layers layer_names []

/-- Unsatisfied-provider error message of
`LayerManager._validate_provider_requirements`. -/
def providerReqMsg (layer_name required_provider : String) : String :=
  "Layer '" ++ layer_name ++ "' requires provider '" ++ required_provider
    ++ "' but no layer in the dependency chain provides it"

/-- Union of provides tokens across a build order (the
`available_providers` set; membership is the only observable). -/
def availableProviders (layers : Layers) (build_order : List String) : List String :=
  build_order.foldl (fun acc n => acc ++ providesOf layers n) []

/-- Requirement-check loop of `_validate_provider_requirements`: first
unsatisfied `(layer, token)` pair in scan order raises. -/
def checkProviderReqs (layers : Layers) (avail : List String) :
    List String → Except String Unit
  | [] => .ok ()
  | layer_name :: rest =>
    match (providerRequiresOf layers layer_name).find? (fun rp => ¬ avail.contains rp) with
    | some rp => .error (providerReqMsg layer_name rp)
    | none => checkProviderReqs layers avail rest

/-- LayerManager._validate_provider_requirements: scope conflict check,
then every layer's required provider tokens against the union of provides
tokens across the whole order. -/
def validateProviderRequirements (layers : Layers) (build_order : List String) :
    Except String Unit :=
  match checkProviderConflictsInScope layers build_order with
  | .error e => .error e
  | .ok _ =>
    match availableProviders layers build_order with
    | avail => checkProviderReqs layers avail build_order

/-- LayerManager.get_build_order: validate that every target's required
dependency chain is loaded, construct the depth-first order, then validate
providers within the order's scope.  `none` models non-termination of the
Python recursion (a required- or optional-dependency cycle), `some
(.error e)` a raised ValueError, `some (.ok order)` a returned order. -/
def getBuildOrderFuel (layers : Layers) (target_layers : List String) (fuel : Nat) :
    Option (Except String (List String)) :=
  match checkAllMissing layers target_layers fuel with
  | none => none
  | some (.error e) => some (.error e)
  | some (.ok _) =>
    match buildOrderPass layers target_layers fuel with
    | none => none
    | some st =>
      match validateProviderRequirements layers st.order with
      | .error e => some (.error e)
      | .ok _ => some (.ok st.order)

/-- LayerManager._build_provider_index: iterate loaded layers in load
order; the first layer providing a token becomes its canonical provider,
later ones are recorded in the conflicts map only (the map value models
the Python set of contending layer names by membership). -/
def buildProviderIndex (layers : Layers) :
    List (String × String) × List (String × List String) :=
  layers.foldl
    (fun acc l =>
      l.provides.foldl
        (fun acc' tok =>
          match acc'.1.lookup tok with
          | some existing =>
            if existing ≠ l.name then
              (acc'.1, recordConflict acc'.2 tok existing l.name)
            else
              (setIndex acc'.1 tok l.name, acc'.2)
          | none => (setIndex acc'.1 tok l.name, acc'.2))
        acc)
    ([], [])
where
  /-- Dict assignment `provider_index[tok] = name` (replace or append). -/
  setIndex : List (String × String) → String → String → List (String × String)
    | [], tok, name => [(tok, name)]
    | (t, n) :: rest, tok, name =>
      if t = tok then (t, name) :: rest else (t, n) :: setIndex rest tok name
  /-- `provider_conflicts.setdefault(tok, set()).update({existing, name})`. -/
  recordConflict : List (String × List String) → String → String → String →
      List (String × List String)
    | [], tok, existing, name => [(tok, [existing, name])]
    | (t, ns) :: rest, tok, existing, name =>
      if t = tok then
        (t, (if ns.contains existing then ns else ns ++ [existing]).append
              (if ns.contains name ∨ (¬ ns.contains existing ∧ existing = name) then []
               else [name])) :: rest
      else (t, ns) :: recordConflict rest tok existing name

/-- Uppercase start of a placeholder name (regex class `[A-Z]`). -/
def isNameStart (c : Char) : Bool :=
  'A' ≤ c && c ≤ 'Z'

/-- Continuation character of a placeholder name (regex class
`[A-Z0-9_]`). -/
def isNameChar (c : Char) : Bool :=
  isNameStart c || ('0' ≤ c && c ≤ '9') || c = '_'

/-- After an opening dollar-brace, parse `NAME` followed by a closing
brace (the regex group `[A-Z][A-Z0-9_]*` and the brace after it); returns
the name and the remainder.  The regex engine cannot backtrack here: the
greedy name run stops exactly at the first non-name character, which must
then be the closing brace. -/
def parsePH : List Char → Option (List Char × List Char)
  | [] => none
  | c :: rest =>
    if isNameStart c then
      if startsWithChars (rest.dropWhile isNameChar) ['}'] then
        some (c :: rest.takeWhile isNameChar, (rest.dropWhile isNameChar).drop 1)
      else none
    else none

/-- Placeholder lookup (`placeholders.get(key)`). -/
def lookupPH (ph : List (List Char × List Char)) (nm : List Char) : Option (List Char) :=
  match ph.find? (fun p => p.1 == nm) with
  | some p => some p.2
  | none => none

/-- Scanner core of `MetadataContainer._substitute_placeholders`.  The
Python implementation first swaps every `\${` for a reserved token, then
runs `re.sub` left to right, then swaps the token back to `${`; for every
input that does not itself contain the reserved token this equals one
left-to-right scan that (a) reproduces an escaped `\${` as a literal `${`
and continues after it, (b) replaces `${NAME}` by the placeholder value
when `NAME` is known, (c) reproduces `${NAME}` verbatim when unknown and
continues after the closing brace (re.sub consumes the match), and (d)
copies any other character; when a match attempt fails at a dollar sign
the scan moves one character forward, and no match can begin at the brace
that follows it.  The fuel decreases once per step while every step
consumes at least one character, so `length + 1` fuel always suffices
(fuel exhaustion returns the remaining input unchanged). -/
def scanF (ph : List (List Char × List Char)) : Nat → List Char → List Char
  | 0, s => s
  | fuel + 1, s =>
    match s with
    | [] => []
    | c :: rest =>
      if c = '\\' ∧ startsWithChars rest ['$', '{'] then
        '$' :: '{' :: scanF ph fuel (rest.drop 2)
      else if c = '$' ∧ startsWithChars rest ['{'] then
        match parsePH (rest.drop 1) with
        | some (nm, r3) =>
          match lookupPH ph nm with
          | some v => v ++ scanF ph fuel r3
          | none => '$' :: '{' :: (nm ++ '}' :: scanF ph fuel r3)
        | none => c :: scanF ph fuel rest
      else c :: scanF ph fuel rest

/-- Guard of `_substitute_placeholders`: `if "${" not in text: return
text`. -/
def containsDollarBrace : List Char → Bool
  | [] => false
  | '$' :: '{' :: _ => true
  | _ :: rest => containsDollarBrace rest

/-- MetadataContainer._substitute_placeholders on one string field. -/
def substitutePlaceholders (ph : List (List Char × List Char)) (text : List Char) :
    List Char :=
  if containsDollarBrace text then scanF ph (text.length + 1) text else text

/-- MetadataContainer.apply_placeholders: substitute into every string
field of the metadata map. -/
def applyPlaceholders (ph : List (List Char × List Char))
    (raw_metadata : List (List Char × List Char)) : List (List Char × List Char) :=
  raw_metadata.map (fun kv => (kv.1, substitutePlaceholders ph kv.2))

/-- Concrete force definitions for the witness: two layers both forcing
the same variable at positions 0 and 1. -/
def cDefF0 : EnvVar := ⟨"VAR", "a", "", false, none, "", "force", "L1", 0⟩

/-- Second concrete force definition (position 1). -/
def cDefF1 : EnvVar := ⟨"VAR", "b", "", false, none, "", "force", "L2", 1⟩

/-- Empty process environment. -/
def cEnvEmpty : Env := fun _ => none

/-- Write condition of the apply phase, evaluated against the environment
as it stands when the variable is processed: force always writes,
immediate and lazy write only when the name is absent. -/
def writtenEntry (env : Env) (p : String × EnvVar) : Option (String × String) :=
  if p.2.set_policy = "force" ∨
      ((p.2.set_policy = "immediate" ∨ p.2.set_policy = "lazy") ∧ env p.2.name = none) then
    some (p.2.name, p.2.value)
  else none

/-- Concrete lazy definition for the C2 witness. -/
def cDefLazy : EnvVar := ⟨"V", "x", "a lazy default", false, none, "", "lazy", "L1", 0⟩

/-- Concrete environment with `V` pre-populated to `"y"`. -/
def cEnvY : Env := fun s => if s = "V" then some "y" else none

/-- Concrete immediate definition for the C10 witness. -/
def cDefImm : EnvVar := ⟨"V1", "42", "", false, none, "", "immediate", "L1", 0⟩

/-- Concrete skip definition for the C10 witness. -/
def cDefSkip : EnvVar := ⟨"V2", "7", "", false, none, "", "skip", "L1", 0⟩

/-- Concrete single-layer variable table for the C10 witness. -/
def cLayerVars : String → List (String × EnvVar) :=
  fun ln => if ln = "L1" then [("V1", cDefImm), ("V2", cDefSkip)] else []

/-- Lazy definition with a blank default and a string-or-unset validator:
the input on which the single-layer lazy branch differs from immediate. -/
def cDefLazyUnset : EnvVar :=
  ⟨"W", "", "", false, some (.string false true), "string-or-unset", "lazy", "L1", 0⟩

/-- Concrete definition for the C9 witness (no validator, non-blank
default). -/
def cDefPlain : EnvVar := ⟨"W", "x", "", false, none, "", "lazy", "L1", 0⟩

/-- Self-providing layer: it both provides and requires the token `x`. -/
def cSelfLayer : LayerInfo := ⟨"s", [], [], ["x"], ["x"]⟩

/-- First loaded layer providing the token `X`. -/
def cLayerA : LayerInfo := ⟨"la", [], [], ["X"], []⟩

/-- Second loaded layer providing the same token `X`. -/
def cLayerB : LayerInfo := ⟨"lb", [], [], ["X"], []⟩

/-- Two-layer load set for the provider-conflict claim. -/
def cProvLayers : Layers := [cLayerA, cLayerB]

/-- Layer `A` of the required-dependency cycle. -/
def cCycA : LayerInfo := ⟨"A", ["B"], [], [], []⟩

/-- Layer `B` of the required-dependency cycle. -/
def cCycB : LayerInfo := ⟨"B", ["A"], [], [], []⟩

/-- Two-layer load set with the required-dependency cycle `A → B → A`. -/
def cCycLayers : Layers := [cCycA, cCycB]

/-- Invariant of the order-construction state: the processed set mirrors
the order, names are pairwise distinct, and every appended layer is loaded
with all its required dependencies appended earlier. -/
def GoodState (layers : Layers) (st : BuildState) : Prop :=
  st.processed = st.order ∧ st.order.Nodup ∧
  ∀ m ∈ st.order, (findLayer layers m).isSome ∧
    ∀ d ∈ getDependencies layers m, d ∈ st.order ∧
      st.order.indexOf d < st.order.indexOf m

/-- Two-layer acyclic set for the C3 witness: `app` requires `base`. -/
def cBase : LayerInfo := ⟨"base", [], [], [], []⟩

/-- Dependent layer of the C3 witness. -/
def cApp : LayerInfo := ⟨"app", ["base"], [], [], []⟩

/-- Rank function witnessing acyclicity of the two-layer set. -/
def cRank : String → Nat := fun n => if n = "app" then 1 else 0

/-- A character that can never begin a regex match or an escape inside
`_substitute_placeholders`: neither the backslash of `\x7b`-escapes nor
the dollar sign of a placeholder. -/
def plainChar (c : Char) : Bool :=
  (c != '\\') && (c != '$')

/-- The input contains no escaped opening `\x7b`: no backslash directly
followed by a dollar-brace.  This is the amendment hypothesis under which
substitution is idempotent; an escape consumed by the first pass exposes a
fresh `$\x7b` to the second pass. -/
def noEscape : List Char → Bool
  | [] => true
  | c :: rest =>
    if c = '\\' ∧ startsWithChars rest ['$', '{'] then false else noEscape rest

/-- A placeholder value that cannot interfere with later matches: it is
nonempty, contains no dollar sign, backslash or opening brace, and its
first character can neither extend a placeholder name nor close one.  The
concrete values `x.yaml`, `/tmp`, `/tmp/x.yaml` built by
`apply_placeholders` all satisfy this. -/
def cleanValue : List Char → Bool
  | [] => false
  | c :: rest =>
    !isNameChar c && (c != '}') &&
      (c :: rest).all (fun x => (x != '$') && (x != '\\') && (x != '{'))

/-- Every placeholder value of the mapping is clean. -/
def cleanPH (ph : List (List Char × List Char)) : Bool :=
  ph.all (fun p => cleanValue p.2)

/-- Fixed-point sensor for the scanner: `inertF` is true when one more
scanner pass would reproduce the input verbatim, i.e. there is no escape
sequence and every well-formed placeholder occurrence names an unknown
key.  Fuel mirrors `scanF`; exhausted fuel reports true vacuously. -/
def inertF (ph : List (List Char × List Char)) : Nat → List Char → Bool
  | 0, _ => true
  | fuel + 1, s =>
    match s with
    | [] => true
    | c :: rest =>
      if c = '\\' ∧ startsWithChars rest ['$', '{'] then false
      else if c = '$' ∧ startsWithChars rest ['{'] then
        match parsePH (rest.drop 1) with
        | some (nm, r3) => (lookupPH ph nm).isNone && inertF ph fuel r3
        | none => inertF ph fuel rest
      else inertF ph fuel rest

/-- The placeholder mapping `apply_placeholders` builds for a metadata
file named `x.yaml` living in `/tmp`. -/
def phXYaml : List (List Char × List Char) :=
  [("FILENAME".data, "x.yaml".data),
   ("DIRECTORY".data, "/tmp".data),
   ("FILEPATH".data, "/tmp/x.yaml".data)]

/-- The escaped field value `\$\x7bFILENAME\x7d` from the spec's example. -/
def escTest : List Char := '\\' :: "${FILENAME}".data

/-- The head of the list (if any) can neither continue a placeholder name
nor close one, so a name scan ending there never completes a match. -/
def headBad (X : List Char) : Prop :=
  X = [] ∨ ∃ d t, X = d :: t ∧ isNameChar d = false ∧ d ≠ '}'

/-- Best-element property of the fold inside `getLastByPosition`. -/
theorem lastFold_spec (as : List EnvVar) (b : EnvVar) :
    (as.foldl (fun best x => if best.position < x.position then x else best) b = b ∨
      as.foldl (fun best x => if best.position < x.position then x else best) b ∈ as) ∧
    b.position ≤ (as.foldl (fun best x => if best.position < x.position then x else best) b).position ∧
    (∀ x ∈ as, x.position ≤ (as.foldl (fun best x => if best.position < x.position then x else best) b).position) := by
  induction as generalizing b with
  | nil => simp
  | cons a as ih =>
    simp only [List.foldl_cons]
    obtain ⟨hmem, hb, hall⟩ := ih (if b.position < a.position then a else b)
    refine ⟨?_, ?_, ?_⟩
    · rcases hmem with h | h
      · rw [h]
        by_cases hc : b.position < a.position
        · simp [hc]
        · simp [hc]
      · exact Or.inr (List.mem_cons_of_mem a h)
    · refine le_trans ?_ hb
      by_cases hc : b.position < a.position
      · simp only [if_pos hc]
        omega
      · simp only [if_neg hc]
        omega
    · intro x hx
      rcases List.mem_cons.mp hx with rfl | hx
      · refine le_trans ?_ hb
        by_cases hc : b.position < x.position
        · simp only [if_pos hc]
          omega
        · simp only [if_neg hc]
          omega
      · exact hall x hx

/-- Best-element property of the fold inside `getFirstByPosition`. -/
theorem firstFold_spec (as : List EnvVar) (b : EnvVar) :
    (as.foldl (fun best x => if x.position < best.position then x else best) b = b ∨
      as.foldl (fun best x => if x.position < best.position then x else best) b ∈ as) ∧
    (as.foldl (fun best x => if x.position < best.position then x else best) b).position ≤ b.position ∧
    (∀ x ∈ as, (as.foldl (fun best x => if x.position < best.position then x else best) b).position ≤ x.position) := by
  induction as generalizing b with
  | nil => simp
  | cons a as ih =>
    simp only [List.foldl_cons]
    obtain ⟨hmem, hb, hall⟩ := ih (if a.position < b.position then a else b)
    refine ⟨?_, ?_, ?_⟩
    · rcases hmem with h | h
      · rw [h]
        by_cases hc : a.position < b.position
        · simp [hc]
        · simp [hc]
      · exact Or.inr (List.mem_cons_of_mem a h)
    · refine le_trans hb ?_
      by_cases hc : a.position < b.position
      · simp only [if_pos hc]
        omega
      · simp only [if_neg hc]
        omega
    · intro x hx
      rcases List.mem_cons.mp hx with rfl | hx
      · refine le_trans hb ?_
        by_cases hc : x.position < b.position
        · simp only [if_pos hc]
          omega
        · simp only [if_neg hc]
          omega
      · exact hall x hx

/-- `getLastByPosition` on a nonempty list returns a member of maximal
position. -/
theorem getLastByPosition_spec (l : List EnvVar) (hne : l ≠ []) :
    ∃ v, getLastByPosition l = some v ∧ v ∈ l ∧ ∀ x ∈ l, x.position ≤ v.position := by
  match l with
  | [] => exact absurd rfl hne
  | d :: ds =>
    refine ⟨_, rfl, ?_, ?_⟩
    · rcases (lastFold_spec ds d).1 with h | h
      · rw [h]; exact List.mem_cons_self d ds
      · exact List.mem_cons_of_mem d h
    · intro x hx
      rcases List.mem_cons.mp hx with rfl | hx
      · exact (lastFold_spec ds x).2.1
      · exact (lastFold_spec ds d).2.2 x hx

/-- `getFirstByPosition` on a nonempty list returns a member of minimal
position. -/
theorem getFirstByPosition_spec (l : List EnvVar) (hne : l ≠ []) :
    ∃ v, getFirstByPosition l = some v ∧ v ∈ l ∧ ∀ x ∈ l, v.position ≤ x.position := by
  match l with
  | [] => exact absurd rfl hne
  | d :: ds =>
    refine ⟨_, rfl, ?_, ?_⟩
    · rcases (firstFold_spec ds d).1 with h | h
      · rw [h]; exact List.mem_cons_self d ds
      · exact List.mem_cons_of_mem d h
    · intro x hx
      rcases List.mem_cons.mp hx with rfl | hx
      · exact (firstFold_spec ds x).2.1
      · exact (firstFold_spec ds d).2.2 x hx

/-- Claim C1: for every variable name with collected definitions,
`_resolve_single_variable` picks: with any `force` definition present, a
force definition of largest position; otherwise, with `immediate`
definitions present and the variable unset in the process environment, an
immediate definition of smallest position; otherwise, with `lazy`
definitions present and the variable unset, a lazy definition of largest
position. -/
theorem resolve_single_variable_policy (env : Env) (var_name : String)
    (definitions : List EnvVar) :
    (definitions.filter (fun d => d.set_policy == "force") ≠ [] →
      ∃ v, resolveSingle env var_name definitions = some v ∧
        v ∈ definitions.filter (fun d => d.set_policy == "force") ∧
        ∀ d ∈ definitions.filter (fun d => d.set_policy == "force"),
          d.position ≤ v.position) ∧
    (definitions.filter (fun d => d.set_policy == "force") = [] →
      definitions.filter (fun d => d.set_policy == "immediate") ≠ [] →
      env var_name = none →
      ∃ v, resolveSingle env var_name definitions = some v ∧
        v ∈ definitions.filter (fun d => d.set_policy == "immediate") ∧
        ∀ d ∈ definitions.filter (fun d => d.set_policy == "immediate"),
          v.position ≤ d.position) ∧
    (definitions.filter (fun d => d.set_policy == "force") = [] →
      definitions.filter (fun d => d.set_policy == "immediate") = [] →
      definitions.filter (fun d => d.set_policy == "lazy") ≠ [] →
      env var_name = none →
      ∃ v, resolveSingle env var_name definitions = some v ∧
        v ∈ definitions.filter (fun d => d.set_policy == "lazy") ∧
        ∀ d ∈ definitions.filter (fun d => d.set_policy == "lazy"),
          d.position ≤ v.position) := by
  refine ⟨?_, ?_, ?_⟩
  · intro hf
    obtain ⟨v, hv, hmem, hmax⟩ := getLastByPosition_spec _ hf
    exact ⟨v, by simp only [resolveSingle, if_pos hf]; exact hv, hmem, hmax⟩
  · intro hf hi he
    obtain ⟨v, hv, hmem, hmin⟩ := getFirstByPosition_spec _ hi
    refine ⟨v, ?_, hmem, hmin⟩
    simp only [resolveSingle]
    rw [if_neg (by simp [hf]), if_pos ⟨hi, he⟩]
    exact hv
  · intro hf hi hl he
    obtain ⟨v, hv, hmem, hmax⟩ := getLastByPosition_spec _ hl
    refine ⟨v, ?_, hmem, hmax⟩
    simp only [resolveSingle]
    rw [if_neg (by simp [hf]), if_neg (by simp [hi]), if_pos ⟨hl, he⟩]
    exact hv

/-- Witness for C1 at a concrete input: with two force definitions the
resolver returns a force definition of maximal position. -/
theorem resolve_single_variable_policy_witness :
    ∃ v, resolveSingle cEnvEmpty "VAR" [cDefF0, cDefF1] = some v ∧
      v ∈ [cDefF0, cDefF1].filter (fun d => d.set_policy == "force") ∧
      ∀ d ∈ [cDefF0, cDefF1].filter (fun d => d.set_policy == "force"),
        d.position ≤ v.position :=
  (resolve_single_variable_policy cEnvEmpty "VAR" [cDefF0, cDefF1]).1 (by decide)

/-- Ordered insertion permutes cons. -/
theorem insertByPos_perm (x : String × List EnvVar × Nat)
    (l : List (String × List EnvVar × Nat)) :
    List.Perm (insertByPos x l) (x :: l) := by
  induction l with
  | nil => exact List.Perm.refl _
  | cons y ys ih =>
    by_cases h : x.2.2 ≤ y.2.2
    · simp only [insertByPos, if_pos h]
      exact List.Perm.refl _
    · simp only [insertByPos, if_neg h]
      exact (ih.cons y).trans (List.Perm.swap x y ys)

/-- The stable sort is a permutation of its input. -/
theorem sortByEarliest_perm (l : List (String × List EnvVar × Nat)) :
    List.Perm (sortByEarliest l) l := by
  induction l with
  | nil => exact List.Perm.refl _
  | cons x xs ih =>
    exact (insertByPos_perm x (sortByEarliest xs)).trans (ih.cons x)

/-- A resolved definition is one of the collected definitions. -/
theorem resolveSingle_mem (env : Env) (n : String) (ds : List EnvVar) (v : EnvVar)
    (h : resolveSingle env n ds = some v) : v ∈ ds := by
  simp only [resolveSingle] at h
  split at h
  · obtain ⟨u, hu, humem, _⟩ := getLastByPosition_spec _ (by assumption)
    rw [hu] at h
    cases h
    exact (List.mem_filter.mp humem).1
  · split at h
    · rename_i hcond
      obtain ⟨u, hu, humem, _⟩ := getFirstByPosition_spec _ hcond.1
      rw [hu] at h
      cases h
      exact (List.mem_filter.mp humem).1
    · split at h
      · rename_i hcond
        obtain ⟨u, hu, humem, _⟩ := getLastByPosition_spec _ hcond.1
        rw [hu] at h
        cases h
        exact (List.mem_filter.mp humem).1
      · cases h

/-- A variable with no force definition that is present in the environment
resolves to nothing in `_resolve_single_variable`. -/
theorem resolveSingle_none (env : Env) (n : String) (ds : List EnvVar) (w : String)
    (hnoforce : ∀ d ∈ ds, d.set_policy ≠ "force") (hset : env n = some w) :
    resolveSingle env n ds = none := by
  have hf : ds.filter (fun d => d.set_policy == "force") = [] := by
    rw [List.filter_eq_nil_iff]
    intro d hd
    simp only [beq_iff_eq]
    exact hnoforce d hd
  simp only [resolveSingle, hf]
  rw [if_neg (by simp), if_neg (by simp [hset]), if_neg (by simp [hset])]

/-- Entry names produced by `resolveFull` equal their keys, provided the
collected definitions carry their key as name. -/
theorem resolveFull_entry_names (env : Env) (defs : List (String × List EnvVar))
    (hnames : ∀ p ∈ defs, ∀ v ∈ p.2, v.name = p.1) :
    ∀ p ∈ resolveFull env defs, p.2.name = p.1 := by
  intro p hp
  simp only [resolveFull] at hp
  obtain ⟨q, hq, hfq⟩ := List.mem_filterMap.mp hp
  have hq' : q ∈ (defs.filter (fun p => ¬ p.2.isEmpty)).map
      (fun p => (p.1, p.2, earliestPosition p.2)) :=
    (sortByEarliest_perm _).mem_iff.mp hq
  obtain ⟨r, hr, hrq⟩ := List.mem_map.mp hq'
  have hrdefs : r ∈ defs := (List.mem_filter.mp hr).1
  subst hrq
  revert hfq
  cases hres : resolveSingle env r.1 r.2 with
  | some v =>
    intro hfq
    simp only [Option.some.injEq] at hfq
    subst hfq
    exact hnames r hrdefs v (resolveSingle_mem env r.1 r.2 v hres)
  | none =>
    cases henv : env r.1 with
    | none =>
      cases hr2 : r.2 with
      | nil => intro h; cases h
      | cons d0 rest => intro h; cases h
    | some w =>
      cases hr2 : r.2 with
      | nil => intro h; cases h
      | cons d0 rest =>
        intro h
        simp only [Option.some.injEq] at h
        subst h
        rfl

/-- With no force definition and the variable present in the environment,
`resolve` synthesizes the `already_set` entry built from the first
definition. -/
theorem resolveFull_mem_alreadySet (env : Env) (defs : List (String × List EnvVar))
    (n w : String) (d0 : EnvVar) (rest : List EnvVar)
    (hmem : (n, d0 :: rest) ∈ defs)
    (hnoforce : ∀ d ∈ d0 :: rest, d.set_policy ≠ "force")
    (hset : env n = some w) :
    (n, mkAlreadySet n w d0) ∈ resolveFull env defs := by
  simp only [resolveFull]
  refine List.mem_filterMap.mpr ⟨(n, d0 :: rest, earliestPosition (d0 :: rest)), ?_, ?_⟩
  · refine (sortByEarliest_perm _).mem_iff.mpr ?_
    refine List.mem_map.mpr ⟨(n, d0 :: rest), ?_, rfl⟩
    exact List.mem_filter.mpr ⟨hmem, by simp⟩
  · rw [resolveSingle_none env n (d0 :: rest) w hnoforce hset]
    rw [hset]

/-- Keys pairwise distinct makes association-list membership functional. -/
theorem assoc_unique {β : Type} (l : List (String × β)) (k : String) (a b : β)
    (hnodup : (l.map Prod.fst).Nodup) (ha : (k, a) ∈ l) (hb : (k, b) ∈ l) : a = b := by
  induction l with
  | nil => cases ha
  | cons p rest ih =>
    rcases List.mem_cons.mp ha with rfl | ha'
    · rcases List.mem_cons.mp hb with h | hb'
      · cases h
        rfl
      · exfalso
        have : k ∈ rest.map Prod.fst := List.mem_map.mpr ⟨(k, b), hb', rfl⟩
        exact (List.nodup_cons.mp hnodup).1 this
    · rcases List.mem_cons.mp hb with rfl | hb'
      · exfalso
        have : k ∈ rest.map Prod.fst := List.mem_map.mpr ⟨(k, a), ha', rfl⟩
        exact (List.nodup_cons.mp hnodup).1 this
      · exact ih (List.nodup_cons.mp hnodup).2 ha' hb'

/-- Keys of a key-preserving `filterMap` form a sublist of the input
keys. -/
theorem filterMap_keys_sublist {α γ : Type} (key : α → String)
    (f : α → Option (String × γ)) (l : List α)
    (hf : ∀ a q, f a = some q → q.1 = key a) :
    List.Sublist ((l.filterMap f).map Prod.fst) (l.map key) := by
  induction l with
  | nil => simp
  | cons a rest ih =>
    cases hfa : f a with
    | none =>
      simp only [List.filterMap_cons, hfa, List.map_cons]
      exact ih.cons (key a)
    | some q =>
      simp only [List.filterMap_cons, hfa, List.map_cons]
      rw [hf a q hfa]
      exact ih.cons₂ (key a)

/-- Keys of `resolveFull`'s output are pairwise distinct when the collected
keys are. -/
theorem resolveFull_keys_nodup (env : Env) (defs : List (String × List EnvVar))
    (hkeys : (defs.map Prod.fst).Nodup) :
    ((resolveFull env defs).map Prod.fst).Nodup := by
  simp only [resolveFull]
  have hsub : List.Sublist
      (((sortByEarliest ((defs.filter (fun p => ¬ p.2.isEmpty)).map
          (fun p => (p.1, p.2, earliestPosition p.2)))).filterMap (fun q =>
        match resolveSingle env q.1 q.2.1 with
        | some v => some (q.1, v)
        | none =>
          match env q.1, q.2.1 with
          | some w, first_def :: _ => some (q.1, mkAlreadySet q.1 w first_def)
          | _, _ => none)).map Prod.fst)
      ((sortByEarliest ((defs.filter (fun p => ¬ p.2.isEmpty)).map
          (fun p => (p.1, p.2, earliestPosition p.2)))).map (fun (q : String × List EnvVar × Nat) => q.1)) := by
    refine filterMap_keys_sublist (fun (q : String × List EnvVar × Nat) => q.1) _ _ ?_
    intro a q hfa
    revert hfa
    cases resolveSingle env a.1 a.2.1 with
    | some v =>
      intro hfa
      cases hfa
      rfl
    | none =>
      cases env a.1 with
      | none =>
        cases a.2.1 with
        | nil => intro hfa; cases hfa
        | cons d0 rest => intro hfa; cases hfa
      | some w =>
        cases a.2.1 with
        | nil => intro hfa; cases hfa
        | cons d0 rest =>
          intro hfa
          cases hfa
          rfl
  refine hsub.nodup ?_
  have hperm : List.Perm
      ((sortByEarliest ((defs.filter (fun p => ¬ p.2.isEmpty)).map
          (fun p => (p.1, p.2, earliestPosition p.2)))).map (fun (q : String × List EnvVar × Nat) => q.1))
      (((defs.filter (fun p => ¬ p.2.isEmpty)).map
          (fun p => (p.1, p.2, earliestPosition p.2))).map (fun (q : String × List EnvVar × Nat) => q.1)) :=
    (sortByEarliest_perm _).map _
  refine hperm.nodup_iff.mpr ?_
  rw [List.map_map]
  have : ((defs.filter (fun p => ¬ p.2.isEmpty)).map
      ((fun (q : String × List EnvVar × Nat) => q.1) ∘ (fun p => (p.1, p.2, earliestPosition p.2)))) =
      (defs.filter (fun p => ¬ p.2.isEmpty)).map Prod.fst := by
    exact List.map_congr_left (fun x _ => rfl)
  rw [this]
  exact ((List.filter_sublist defs).map Prod.fst).nodup hkeys

/-- Environment lookup after an update of a different name. -/
theorem envSet_ne (env : Env) (k v n : String) (h : n ≠ k) :
    envSet env k v n = env n := by
  simp [envSet, h]

/-- Environment lookup after an update of the same name. -/
theorem envSet_eq (env : Env) (k v : String) : envSet env k v k = some v := by
  simp [envSet]

/-- The apply loop only appends to the incoming write log, and neither the
final environment nor the appended part depends on it. -/
theorem applyResolved_log_split (resolved : List (String × EnvVar)) (env : Env)
    (log : List (String × String)) :
    applyResolved env resolved log =
      ((applyResolved env resolved []).1, log ++ (applyResolved env resolved []).2) := by
  induction resolved generalizing env log with
  | nil => simp [applyResolved]
  | cons p rest ih =>
    obtain ⟨k, v⟩ := p
    by_cases h1 : v.set_policy = "force"
    · simp only [applyResolved, if_pos h1]
      rw [ih _ (log ++ [(v.name, v.value)]), ih _ ([] ++ [(v.name, v.value)])]
      simp
    · by_cases h2 : v.set_policy = "immediate"
      · cases henv : env v.name with
        | none =>
          simp only [applyResolved, if_neg h1, if_pos h2, henv]
          rw [ih _ (log ++ [(v.name, v.value)]), ih _ ([] ++ [(v.name, v.value)])]
          simp
        | some w =>
          simp only [applyResolved, if_neg h1, if_pos h2, henv]
          exact ih env log
      · by_cases h3 : v.set_policy = "lazy"
        · cases henv : env v.name with
          | none =>
            simp only [applyResolved, if_neg h1, if_neg h2, if_pos h3, henv]
            rw [ih _ (log ++ [(v.name, v.value)]), ih _ ([] ++ [(v.name, v.value)])]
            simp
          | some w =>
            simp only [applyResolved, if_neg h1, if_neg h2, if_pos h3, henv]
            exact ih env log
        · simp only [applyResolved, if_neg h1, if_neg h2, if_neg h3]
          exact ih env log

/-- `writtenEntry` only looks at the environment through the entry's own
name. -/
theorem writtenEntry_congr (env1 env2 : Env) (p : String × EnvVar)
    (h : env1 p.2.name = env2 p.2.name) : writtenEntry env1 p = writtenEntry env2 p := by
  simp only [writtenEntry, h]

/-- Frame property of the apply loop: a name none of whose entries writes
is left untouched in the environment and never enters the write log. -/
theorem applyResolved_frame (resolved : List (String × EnvVar)) (env : Env) (n : String)
    (h : ∀ p ∈ resolved, p.2.name = n → writtenEntry env p = none) :
    (applyResolved env resolved []).1 n = env n ∧
    n ∉ (applyResolved env resolved []).2.map Prod.fst := by
  induction resolved generalizing env with
  | nil => simp [applyResolved]
  | cons p rest ih =>
    obtain ⟨k, v⟩ := p
    by_cases h1 : v.set_policy = "force"
    · have hne : v.name ≠ n := by
        intro he
        have := h (k, v) (List.mem_cons_self _ _) he
        simp [writtenEntry, h1] at this
      simp only [applyResolved, if_pos h1]
      rw [applyResolved_log_split]
      have ih' := ih (envSet env v.name v.value) (fun p hp hpn => by
        rw [← h p (List.mem_cons_of_mem _ hp) hpn]
        refine writtenEntry_congr _ _ p ?_
        rw [hpn]
        exact envSet_ne env v.name v.value n hne.symm)
      refine ⟨?_, ?_⟩
      · rw [ih'.1]
        exact envSet_ne env v.name v.value n hne.symm
      · simp only [List.map_append, List.mem_append]
        rintro (hl | hr)
        · simp at hl
          exact hne hl.symm
        · exact ih'.2 hr
    · by_cases h2 : v.set_policy = "immediate"
      · cases henv : env v.name with
        | none =>
          have hne : v.name ≠ n := by
            intro he
            have := h (k, v) (List.mem_cons_self _ _) he
            simp [writtenEntry, h1, h2, henv] at this
          simp only [applyResolved, if_neg h1, if_pos h2, henv]
          rw [applyResolved_log_split]
          have ih' := ih (envSet env v.name v.value) (fun p hp hpn => by
            rw [← h p (List.mem_cons_of_mem _ hp) hpn]
            refine writtenEntry_congr _ _ p ?_
            rw [hpn]
            exact envSet_ne env v.name v.value n hne.symm)
          refine ⟨?_, ?_⟩
          · rw [ih'.1]
            exact envSet_ne env v.name v.value n hne.symm
          · simp only [List.map_append, List.mem_append]
            rintro (hl | hr)
            · simp at hl
              exact hne hl.symm
            · exact ih'.2 hr
        | some w =>
          simp only [applyResolved, if_neg h1, if_pos h2, henv]
          exact ih env (fun p hp hpn => h p (List.mem_cons_of_mem _ hp) hpn)
      · by_cases h3 : v.set_policy = "lazy"
        · cases henv : env v.name with
          | none =>
            have hne : v.name ≠ n := by
              intro he
              have := h (k, v) (List.mem_cons_self _ _) he
              simp [writtenEntry, h1, h2, h3, henv] at this
            simp only [applyResolved, if_neg h1, if_neg h2, if_pos h3, henv]
            rw [applyResolved_log_split]
            have ih' := ih (envSet env v.name v.value) (fun p hp hpn => by
              rw [← h p (List.mem_cons_of_mem _ hp) hpn]
              refine writtenEntry_congr _ _ p ?_
              rw [hpn]
              exact envSet_ne env v.name v.value n hne.symm)
            refine ⟨?_, ?_⟩
            · rw [ih'.1]
              exact envSet_ne env v.name v.value n hne.symm
            · simp only [List.map_append, List.mem_append]
              rintro (hl | hr)
              · simp at hl
                exact hne hl.symm
              · exact ih'.2 hr
          | some w =>
            simp only [applyResolved, if_neg h1, if_neg h2, if_pos h3, henv]
            exact ih env (fun p hp hpn => h p (List.mem_cons_of_mem _ hp) hpn)
        · simp only [applyResolved, if_neg h1, if_neg h2, if_neg h3]
          exact ih env (fun p hp hpn => h p (List.mem_cons_of_mem _ hp) hpn)

/-- Claim C2: a variable already present in the environment with no force
definition resolves to a synthesized `already_set` entry that preserves
the first definition's descriptive metadata, and the apply phase neither
overwrites the environment entry nor records the variable in the write
log. -/
theorem already_set_preserves_env (env : Env) (defs : List (String × List EnvVar))
    (n w : String) (d0 : EnvVar) (rest : List EnvVar)
    (hmem : (n, d0 :: rest) ∈ defs)
    (hkeys : (defs.map Prod.fst).Nodup)
    (hnames : ∀ p ∈ defs, ∀ v ∈ p.2, v.name = p.1)
    (hnoforce : ∀ d ∈ d0 :: rest, d.set_policy ≠ "force")
    (hset : env n = some w) :
    (n, mkAlreadySet n w d0) ∈ resolveFull env defs ∧
    (mkAlreadySet n w d0).set_policy = "already_set" ∧
    (mkAlreadySet n w d0).value = w ∧
    (mkAlreadySet n w d0).description = d0.description ∧
    (mkAlreadySet n w d0).required = d0.required ∧
    (mkAlreadySet n w d0).validator = d0.validator ∧
    (mkAlreadySet n w d0).source_layer = d0.source_layer ∧
    (mkAlreadySet n w d0).position = d0.position ∧
    (applyResolved env (resolveFull env defs) []).1 n = some w ∧
    n ∉ (applyResolved env (resolveFull env defs) []).2.map Prod.fst := by
  have hr : (n, mkAlreadySet n w d0) ∈ resolveFull env defs :=
    resolveFull_mem_alreadySet env defs n w d0 rest hmem hnoforce hset
  have hRnodup : ((resolveFull env defs).map Prod.fst).Nodup :=
    resolveFull_keys_nodup env defs hkeys
  have hRnames : ∀ p ∈ resolveFull env defs, p.2.name = p.1 :=
    resolveFull_entry_names env defs hnames
  have hframe := applyResolved_frame (resolveFull env defs) env n (by
    intro p hp hpn
    have hp1 : p.1 = n := by rw [← hRnames p hp, hpn]
    have hpn' : (n, p.2) ∈ resolveFull env defs := by
      have : p = (n, p.2) := by
        rw [← hp1]
      rw [← this]
      exact hp
    have : p.2 = mkAlreadySet n w d0 :=
      assoc_unique (resolveFull env defs) n p.2 (mkAlreadySet n w d0) hRnodup hpn' hr
    simp [writtenEntry, this, mkAlreadySet])
  refine ⟨hr, rfl, rfl, rfl, rfl, rfl, rfl, rfl, ?_, hframe.2⟩
  rw [hframe.1, hset]

/-- Witness for C2 at a concrete input: a lazy default `"x"` against an
environment already holding `"y"` resolves to `already_set` and the
environment keeps `"y"`. -/
theorem already_set_preserves_env_witness :
    ("V", mkAlreadySet "V" "y" cDefLazy) ∈ resolveFull cEnvY [("V", [cDefLazy])] ∧
    (mkAlreadySet "V" "y" cDefLazy).set_policy = "already_set" ∧
    (mkAlreadySet "V" "y" cDefLazy).value = "y" ∧
    (mkAlreadySet "V" "y" cDefLazy).description = cDefLazy.description ∧
    (mkAlreadySet "V" "y" cDefLazy).required = cDefLazy.required ∧
    (mkAlreadySet "V" "y" cDefLazy).validator = cDefLazy.validator ∧
    (mkAlreadySet "V" "y" cDefLazy).source_layer = cDefLazy.source_layer ∧
    (mkAlreadySet "V" "y" cDefLazy).position = cDefLazy.position ∧
    (applyResolved cEnvY (resolveFull cEnvY [("V", [cDefLazy])]) []).1 "V" = some "y" ∧
    "V" ∉ (applyResolved cEnvY (resolveFull cEnvY [("V", [cDefLazy])]) []).2.map Prod.fst :=
  already_set_preserves_env cEnvY [("V", [cDefLazy])] "V" "y" cDefLazy []
    (by decide) (by decide) (by decide) (by decide) (by decide)

/-- Fold invariant helper. -/
theorem foldl_inv {α β : Type} (P : β → Prop) (f : β → α → β) (l : List α) (b : β)
    (hb : P b) (hf : ∀ b' a, a ∈ l → P b' → P (f b' a)) : P (l.foldl f b) := by
  induction l generalizing b with
  | nil => exact hb
  | cons a l ih =>
    exact ih (f b a) (hf b a (List.mem_cons_self a l) hb)
      (fun b' x hx hP => hf b' x (List.mem_cons_of_mem a hx) hP)

/-- Keys after `upsertDef`: unchanged when present, appended when new. -/
theorem upsertDef_keys (m : List (String × List EnvVar)) (k : String) (v : EnvVar) :
    (upsertDef m k v).map Prod.fst =
      if k ∈ m.map Prod.fst then m.map Prod.fst else m.map Prod.fst ++ [k] := by
  induction m with
  | nil => simp [upsertDef]
  | cons p rest ih =>
    obtain ⟨k', vs⟩ := p
    by_cases hk : k' = k
    · subst hk
      simp [upsertDef]
    · simp only [upsertDef, if_neg hk, List.map_cons, ih]
      by_cases hmem : k ∈ rest.map Prod.fst
      · simp [hmem, hk, Ne.symm hk]
      · simp [hmem, hk, Ne.symm hk]

/-- `upsertDef` preserves pairwise-distinct keys. -/
theorem upsertDef_keys_nodup (m : List (String × List EnvVar)) (k : String) (v : EnvVar)
    (h : (m.map Prod.fst).Nodup) : ((upsertDef m k v).map Prod.fst).Nodup := by
  rw [upsertDef_keys]
  by_cases hmem : k ∈ m.map Prod.fst
  · simp [hmem, h]
  · simp [hmem, List.nodup_append, h]

/-- `upsertDef` preserves key-name coherence when the inserted definition
carries its key as name. -/
theorem upsertDef_names (m : List (String × List EnvVar)) (k : String) (v : EnvVar)
    (hm : ∀ p ∈ m, ∀ x ∈ p.2, x.name = p.1) (hv : v.name = k) :
    ∀ p ∈ upsertDef m k v, ∀ x ∈ p.2, x.name = p.1 := by
  induction m with
  | nil =>
    intro p hp x hx
    simp only [upsertDef, List.mem_singleton] at hp
    subst hp
    simp only [List.mem_singleton] at hx
    subst hx
    exact hv
  | cons q rest ih =>
    obtain ⟨k', vs⟩ := q
    intro p hp x hx
    by_cases hk : k' = k
    · subst hk
      simp only [upsertDef, if_pos rfl] at hp
      rcases List.mem_cons.mp hp with rfl | hp'
      · rcases List.mem_append.mp hx with hx' | hx'
        · exact hm (k', vs) (List.mem_cons_self _ _) x hx'
        · simp only [List.mem_singleton] at hx'
          subst hx'
          exact hv
      · exact hm p (List.mem_cons_of_mem _ hp') x hx
    · simp only [upsertDef, if_neg hk] at hp
      rcases List.mem_cons.mp hp with rfl | hp'
      · exact hm (k', vs) (List.mem_cons_self _ _) x hx
      · exact ih (fun r hr => hm r (List.mem_cons_of_mem _ hr)) p hp' x hx

/-- The collected definition map has pairwise-distinct keys and each
definition carries its key as name (the name survives re-tagging). -/
theorem collect_inv (layerVars : String → List (String × EnvVar))
    (build_order : List String)
    (hcoh : ∀ ln, ∀ kv ∈ layerVars ln, kv.2.name = kv.1) :
    ((collectAllVariableDefinitions layerVars build_order).map Prod.fst).Nodup ∧
    ∀ p ∈ collectAllVariableDefinitions layerVars build_order, ∀ x ∈ p.2, x.name = p.1 := by
  refine foldl_inv
    (fun (m : List (String × List EnvVar)) =>
      ((m.map Prod.fst).Nodup ∧ ∀ p ∈ m, ∀ x ∈ p.2, x.name = p.1)) _ _ _
    ⟨by simp, by simp⟩ ?_
  intro m' pn _ hP
  refine foldl_inv
    (fun (m : List (String × List EnvVar)) =>
      ((m.map Prod.fst).Nodup ∧ ∀ p ∈ m, ∀ x ∈ p.2, x.name = p.1)) _ _ _ hP ?_
  intro m'' kv hkv hP'
  refine ⟨upsertDef_keys_nodup _ _ _ hP'.1, upsertDef_names _ _ _ hP'.2 ?_⟩
  exact hcoh pn.2 kv hkv

/-- Pairwise-distinct images make the mapped function injective on
members. -/
theorem map_nodup_inj {α β : Type} (f : α → β) (l : List α) (h : (l.map f).Nodup)
    (a b : α) (ha : a ∈ l) (hb : b ∈ l) (hf : f a = f b) : a = b := by
  induction l with
  | nil => cases ha
  | cons x rest ih =>
    simp only [List.map_cons, List.nodup_cons] at h
    rcases List.mem_cons.mp ha with rfl | ha'
    · rcases List.mem_cons.mp hb with rfl | hb'
      · rfl
      · exact absurd (hf ▸ List.mem_map.mpr ⟨b, hb', rfl⟩) h.1
    · rcases List.mem_cons.mp hb with rfl | hb'
      · exact absurd (hf ▸ List.mem_map.mpr ⟨a, ha', rfl⟩) h.1
      · exact ih h.2 ha' hb'

/-- Resolved entry names are pairwise distinct when the collected keys
are. -/
theorem resolveFull_names_nodup (env : Env) (defs : List (String × List EnvVar))
    (hkeys : (defs.map Prod.fst).Nodup)
    (hnames : ∀ p ∈ defs, ∀ v ∈ p.2, v.name = p.1) :
    ((resolveFull env defs).map (fun p => p.2.name)).Nodup := by
  have heq : (resolveFull env defs).map (fun p => p.2.name) =
      (resolveFull env defs).map Prod.fst :=
    List.map_congr_left (fun p hp => resolveFull_entry_names env defs hnames p hp)
  rw [heq]
  exact resolveFull_keys_nodup env defs hkeys

/-- Characterization of the apply loop on pairwise-distinct names: the
write log is exactly the written entries in order, and every logged value
is the final environment's value for that name. -/
theorem applyResolved_characterization (resolved : List (String × EnvVar)) (env : Env)
    (hnodup : (resolved.map (fun p => p.2.name)).Nodup) :
    (applyResolved env resolved []).2 = resolved.filterMap (writtenEntry env) ∧
    ∀ q ∈ (applyResolved env resolved []).2,
      (applyResolved env resolved []).1 q.1 = some q.2 := by
  induction resolved generalizing env with
  | nil => simp [applyResolved]
  | cons p rest ih =>
    obtain ⟨k, v⟩ := p
    simp only [List.map_cons, List.nodup_cons] at hnodup
    obtain ⟨hni, hnd⟩ := hnodup
    have hcongr : ∀ env1 : Env,
        (∀ q ∈ rest, env1 q.2.name = env q.2.name) →
        rest.filterMap (writtenEntry env1) = rest.filterMap (writtenEntry env) := by
      intro env1 hagree
      refine List.filterMap_congr ?_
      intro q hq
      exact writtenEntry_congr env1 env q (hagree q hq)
    have hwrite : ∀ henv1 : Env, henv1 = envSet env v.name v.value →
        (applyResolved henv1 rest [(v.name, v.value)]).2 =
          (v.name, v.value) :: rest.filterMap (writtenEntry env) ∧
        ∀ q ∈ (applyResolved henv1 rest [(v.name, v.value)]).2,
          (applyResolved henv1 rest [(v.name, v.value)]).1 q.1 = some q.2 := by
      intro env1 henv1
      have hagree : ∀ q ∈ rest, env1 q.2.name = env q.2.name := by
        intro q hq
        rw [henv1]
        refine envSet_ne env v.name v.value q.2.name ?_
        intro he
        exact hni (he ▸ List.mem_map.mpr ⟨q, hq, rfl⟩)
      have ihrec := ih env1 hnd
      have hframe := applyResolved_frame rest env1 v.name (by
        intro q hq hqn
        exact absurd (hqn ▸ List.mem_map.mpr ⟨q, hq, rfl⟩) hni)
      rw [applyResolved_log_split]
      refine ⟨?_, ?_⟩
      · simp only [List.singleton_append]
        rw [ihrec.1, hcongr env1 hagree]
      · intro q hq
        simp only [List.singleton_append, List.mem_cons] at hq
        rcases hq with rfl | hq'
        · simp only
          rw [hframe.1, henv1, envSet_eq]
        · exact ihrec.2 q hq'
    by_cases h1 : v.set_policy = "force"
    · simp only [applyResolved, if_pos h1]
      have hw : writtenEntry env (k, v) = some (v.name, v.value) := by
        simp [writtenEntry, h1]
      rw [List.filterMap_cons, hw]
      exact hwrite (envSet env v.name v.value) rfl
    · by_cases h2 : v.set_policy = "immediate"
      · cases henv : env v.name with
        | none =>
          simp only [applyResolved, if_neg h1, if_pos h2, henv]
          have hw : writtenEntry env (k, v) = some (v.name, v.value) := by
            simp [writtenEntry, h1, h2, henv]
          rw [List.filterMap_cons, hw]
          exact hwrite (envSet env v.name v.value) rfl
        | some w =>
          simp only [applyResolved, if_neg h1, if_pos h2, henv]
          have hw : writtenEntry env (k, v) = none := by
            simp [writtenEntry, h1, h2, henv]
          rw [List.filterMap_cons, hw]
          exact ih env hnd
      · by_cases h3 : v.set_policy = "lazy"
        · cases henv : env v.name with
          | none =>
            simp only [applyResolved, if_neg h1, if_neg h2, if_pos h3, henv]
            have hw : writtenEntry env (k, v) = some (v.name, v.value) := by
              simp [writtenEntry, h1, h2, h3, henv]
            rw [List.filterMap_cons, hw]
            exact hwrite (envSet env v.name v.value) rfl
          | some w =>
            simp only [applyResolved, if_neg h1, if_neg h2, if_pos h3, henv]
            have hw : writtenEntry env (k, v) = none := by
              simp [writtenEntry, h1, h2, h3, henv]
            rw [List.filterMap_cons, hw]
            exact ih env hnd
        · simp only [applyResolved, if_neg h1, if_neg h2, if_neg h3]
          have hw : writtenEntry env (k, v) = none := by
            simp [writtenEntry, h1, h2, h3]
          rw [List.filterMap_cons, hw]
          exact ih env hnd

/-- Claim C10 (amended: restricted to non-empty build orders): after a
successful apply the write log is exactly the entries the apply phase
wrote — every force-resolved variable, plus each immediate- or
lazy-resolved variable that was previously absent — in application order;
every logged value equals the final environment value for its name; and
variables resolved as `already_set` or `skip` never appear in the log. -/
theorem write_log_exact_amended (layerVars : String → List (String × EnvVar))
    (build_order : List String) (env : Env) (write_log0 : List (String × String))
    (hne : build_order ≠ [])
    (hcoh : ∀ ln, ∀ kv ∈ layerVars ln, kv.2.name = kv.1) :
    (applyEnvVarsForBuildOrder layerVars build_order env write_log0).1 = true ∧
    (applyEnvVarsForBuildOrder layerVars build_order env write_log0).2.2 =
      (resolveFull env (collectAllVariableDefinitions layerVars build_order)).filterMap
        (writtenEntry env) ∧
    (∀ q ∈ (applyEnvVarsForBuildOrder layerVars build_order env write_log0).2.2,
      (applyEnvVarsForBuildOrder layerVars build_order env write_log0).2.1 q.1 = some q.2) ∧
    (∀ p ∈ resolveFull env (collectAllVariableDefinitions layerVars build_order),
      (p.2.set_policy = "already_set" ∨ p.2.set_policy = "skip") →
      p.2.name ∉
        ((applyEnvVarsForBuildOrder layerVars build_order env write_log0).2.2.map
          Prod.fst)) := by
  have hinv := collect_inv layerVars build_order hcoh
  have hnodup : ((resolveFull env (collectAllVariableDefinitions layerVars build_order)).map
      (fun p => p.2.name)).Nodup :=
    resolveFull_names_nodup env _ hinv.1 hinv.2
  have hchar := applyResolved_characterization
    (resolveFull env (collectAllVariableDefinitions layerVars build_order)) env hnodup
  have hout : applyEnvVarsForBuildOrder layerVars build_order env write_log0 =
      (true,
        (applyResolved env
          (resolveFull env (collectAllVariableDefinitions layerVars build_order)) []).1,
        (applyResolved env
          (resolveFull env (collectAllVariableDefinitions layerVars build_order)) []).2) := by
    simp only [applyEnvVarsForBuildOrder]
    rw [if_neg (by simp [hne])]
  rw [hout]
  refine ⟨rfl, hchar.1, hchar.2, ?_⟩
  intro p hp hpol hlog
  rw [hchar.1] at hlog
  obtain ⟨nm, hnm⟩ := List.mem_map.mp hlog
  obtain ⟨q, hq, hfq⟩ := List.mem_filterMap.mp hnm.1
  have hqname : q.2.name = p.2.name := by
    revert hfq
    simp only [writtenEntry]
    split
    · intro hfq
      cases hfq
      simpa using hnm.2
    · intro hfq
      cases hfq
  have hqp : q = p := map_nodup_inj (fun r => r.2.name) _ hnodup q p hq hp hqname
  subst hqp
  revert hfq
  simp only [writtenEntry]
  rcases hpol with hpol | hpol <;> rw [if_neg (by simp [hpol])] <;> intro hfq <;> cases hfq

/-- Counterexample to the unamended C10: `apply_env_vars_for_build_order`
returns success for an empty build order without resetting the write log,
so a stale entry survives although nothing was written (and its logged
value is absent from the environment). -/
theorem write_log_stale_on_empty_order_cex :
    (applyEnvVarsForBuildOrder (fun _ => []) [] cEnvEmpty [("X", "1")]).1 = true ∧
    (applyEnvVarsForBuildOrder (fun _ => []) [] cEnvEmpty [("X", "1")]).2.2 = [("X", "1")] ∧
    (applyEnvVarsForBuildOrder (fun _ => []) [] cEnvEmpty [("X", "1")]).2.2 ≠ [] ∧
    (applyEnvVarsForBuildOrder (fun _ => []) [] cEnvEmpty [("X", "1")]).2.1 "X" = none := by
  refine ⟨rfl, rfl, by decide, rfl⟩

/-- Witness for the amended C10 at a concrete input: one immediate and one
skip variable in a one-layer build order with a stale incoming log. -/
theorem write_log_exact_amended_witness :
    (applyEnvVarsForBuildOrder cLayerVars ["L1"] cEnvEmpty [("OLD", "0")]).1 = true ∧
    (applyEnvVarsForBuildOrder cLayerVars ["L1"] cEnvEmpty [("OLD", "0")]).2.2 =
      (resolveFull cEnvEmpty (collectAllVariableDefinitions cLayerVars ["L1"])).filterMap
        (writtenEntry cEnvEmpty) ∧
    (∀ q ∈ (applyEnvVarsForBuildOrder cLayerVars ["L1"] cEnvEmpty [("OLD", "0")]).2.2,
      (applyEnvVarsForBuildOrder cLayerVars ["L1"] cEnvEmpty [("OLD", "0")]).2.1 q.1 =
        some q.2) ∧
    (∀ p ∈ resolveFull cEnvEmpty (collectAllVariableDefinitions cLayerVars ["L1"]),
      (p.2.set_policy = "already_set" ∨ p.2.set_policy = "skip") →
      p.2.name ∉
        ((applyEnvVarsForBuildOrder cLayerVars ["L1"] cEnvEmpty [("OLD", "0")]).2.2.map
          Prod.fst)) :=
  write_log_exact_amended cLayerVars ["L1"] cEnvEmpty [("OLD", "0")]
    (by decide)
    (by
      intro ln kv hkv
      by_cases h : ln = "L1"
      · subst h
        simp [cLayerVars] at hkv
        rcases hkv with rfl | rfl <;> decide
      · simp [cLayerVars, h] at hkv)

/-- Counterexample to C9 as stated: with a string-or-unset validator and a
blank default, the variable is unset yet the lazy branch of
`set_env_vars` does not set it, while the immediate branch does — so the
two branches do not both set the variable exactly when it is unset, nor
produce the same environment. -/
theorem lazy_not_exactly_immediate_cex :
    cEnvEmpty "W" = none ∧
    cDefLazyUnset.set_policy = "lazy" ∧
    (setEnvVarStep cEnvEmpty "W" cDefLazyUnset).1 "W" = none ∧
    (setEnvVarStep cEnvEmpty "W" { cDefLazyUnset with set_policy := "immediate" }).1 "W" =
      some "" := by
  refine ⟨rfl, rfl, ?_, ?_⟩ <;> decide

/-- Claim C9 (amended): in `set_env_vars`, a lazy definition behaves
exactly like an immediate one — same resulting environment, set exactly
when the variable is currently unset — except when its validator allows
unset and its default strips to blank, the case the counterexample
isolates. -/
theorem lazy_vs_immediate_amended (env : Env) (var_name : String) (v : EnvVar)
    (hguard : ¬ (validatorAllowsUnset v.validator = true ∧ strTrim v.value = "")) :
    (∀ n2, (setEnvVarStep env var_name { v with set_policy := "lazy" }).1 n2 =
      (setEnvVarStep env var_name { v with set_policy := "immediate" }).1 n2) ∧
    (env var_name = none →
      (setEnvVarStep env var_name { v with set_policy := "lazy" }).1 var_name =
        some v.value) ∧
    (∀ w, env var_name = some w →
      (setEnvVarStep env var_name { v with set_policy := "lazy" }).1 var_name = some w) := by
  refine ⟨?_, ?_, ?_⟩
  · intro n2
    cases henv : env var_name with
    | none =>
      simp only [setEnvVarStep, henv]
      rw [if_neg (by simp), if_neg (by simp), if_neg (by simp), if_pos (by simp),
        if_neg (by simpa using hguard), if_neg (by simp), if_neg (by simp),
        if_pos (by simp)]
    | some w =>
      simp only [setEnvVarStep, henv]
      rw [if_neg (by simp), if_neg (by simp), if_neg (by simp), if_pos (by simp),
        if_neg (by simp), if_neg (by simp), if_pos (by simp)]
  · intro henv
    simp only [setEnvVarStep, henv]
    rw [if_neg (by simp), if_neg (by simp), if_neg (by simp), if_pos (by simp),
      if_neg (by simpa using hguard)]
    exact envSet_eq env var_name v.value
  · intro w henv
    simp only [setEnvVarStep, henv]
    rw [if_neg (by simp), if_neg (by simp), if_neg (by simp), if_pos (by simp)]
    exact henv

/-- Witness for the amended C9 at a concrete input. -/
theorem lazy_vs_immediate_amended_witness :
    (∀ n2, (setEnvVarStep cEnvEmpty "W" { cDefPlain with set_policy := "lazy" }).1 n2 =
      (setEnvVarStep cEnvEmpty "W" { cDefPlain with set_policy := "immediate" }).1 n2) ∧
    (cEnvEmpty "W" = none →
      (setEnvVarStep cEnvEmpty "W" { cDefPlain with set_policy := "lazy" }).1 "W" =
        some cDefPlain.value) ∧
    (∀ w, cEnvEmpty "W" = some w →
      (setEnvVarStep cEnvEmpty "W" { cDefPlain with set_policy := "lazy" }).1 "W" =
        some w) :=
  lazy_vs_immediate_amended cEnvEmpty "W" cDefPlain (by decide)

/-- Claim C8: the validation-rule parser implements the documented
grammar — `int:10-20` accepts 15 and rejects 5 with exactly one message
naming the minimum, a trailing-comma enumeration accepts its members and
rejects others, and a single bare token with no trailing comma that is no
recognized keyword is a parse error. -/
theorem parse_validator_grammar (s : String)
    (hnc : ¬ strContainsChar (strTrim s) ',')
    (hne : strTrim s ≠ "")
    (hkw : strTrim s ∉
      ["string", "string-or-empty", "string-or-unset", "bool", "int", "size"])
    (hint : ¬ strStartsWith (strTrim s) "int:")
    (hregex : ¬ strStartsWith (strTrim s) "regex:")
    (hkws : ¬ strStartsWith (strTrim s) "keywords:") :
    (∃ pv, parse_validator "int:10-20" = .ok pv ∧
      pv.validate (some "15") = [] ∧
      pv.validate (some "5") = ["Value '5' is below minimum 10."]) ∧
    (∃ pv, parse_validator "frontend,backend," = .ok pv ∧
      pv = .enum ["frontend", "backend"] ∧
      pv.validate (some "frontend") = [] ∧
      pv.validate (some "middleware") =
        ["Value 'middleware' is not one of: frontend, backend"]) ∧
    parse_validator s = .error ("Single value '" ++ strTrim s
      ++ "' must use trailing comma ('" ++ strTrim s
      ++ ",') or keywords: prefix ('keywords:" ++ strTrim s ++ "')") := by
  refine ⟨⟨.int (some 10) (some 20), rfl, rfl, rfl⟩,
    ⟨.enum ["frontend", "backend"], rfl, rfl, rfl, rfl⟩, ?_⟩
  have hs : s ≠ "" := by
    intro h
    exact hne (by rw [h]; rfl)
  have hks := hkw
  simp only [List.mem_cons, List.mem_singleton, List.not_mem_nil, or_false, not_or] at hks
  obtain ⟨h1, h2, h3, h4, h5, h6⟩ := hks
  simp only [parse_validator]
  rw [if_neg hs, if_neg h1, if_neg h2, if_neg h3, if_neg h4, if_neg h5,
    if_neg hint, if_neg hregex, if_neg hkws, if_neg h6, if_neg hnc, if_neg hkw]

/-- Witness for C8 at a concrete input: the bare token `frontend`. -/
theorem parse_validator_grammar_witness :
    (∃ pv, parse_validator "int:10-20" = .ok pv ∧
      pv.validate (some "15") = [] ∧
      pv.validate (some "5") = ["Value '5' is below minimum 10."]) ∧
    (∃ pv, parse_validator "frontend,backend," = .ok pv ∧
      pv = .enum ["frontend", "backend"] ∧
      pv.validate (some "frontend") = [] ∧
      pv.validate (some "middleware") =
        ["Value 'middleware' is not one of: frontend, backend"]) ∧
    parse_validator "frontend" =
      .error ("Single value '" ++ strTrim "frontend" ++ "' must use trailing comma ('"
        ++ strTrim "frontend" ++ ",') or keywords: prefix ('keywords:"
        ++ strTrim "frontend" ++ "')") :=
  parse_validator_grammar "frontend" (by decide) (by decide) (by decide) (by decide)
    (by decide) (by decide)

/-- Lookup in an appended association list is `none` only if it is `none`
on both sides. -/
theorem lookup_append_none {β : Type} (l1 l2 : List (String × β)) (k : String)
    (h : (l1 ++ l2).lookup k = none) : l1.lookup k = none ∧ l2.lookup k = none := by
  induction l1 with
  | nil => exact ⟨rfl, h⟩
  | cons p rest ih =>
    obtain ⟨a, b⟩ := p
    simp only [List.cons_append, List.lookup] at h ⊢
    cases hk : (k == a) with
    | true =>
      rw [hk] at h
      exact Option.noConfusion h
    | false =>
      rw [hk] at h
      exact ih h

/-- Lookup hits in the left part of an append. -/
theorem lookup_append_left {β : Type} (l1 l2 : List (String × β)) (k : String) (v : β)
    (h : l1.lookup k = some v) : (l1 ++ l2).lookup k = some v := by
  induction l1 with
  | nil => cases h
  | cons p rest ih =>
    obtain ⟨a, b⟩ := p
    simp only [List.cons_append, List.lookup] at h ⊢
    cases hk : (k == a) with
    | true =>
      rw [hk] at h
      exact h
    | false =>
      rw [hk] at h
      exact ih h

/-- A token of the list is found in the keyed map built from it. -/
theorem lookup_map_self (toks : List String) (ln : String) (tok : String)
    (h : tok ∈ toks) : ∃ v, (toks.map (fun t => (t, ln))).lookup tok = some v := by
  induction toks with
  | nil => cases h
  | cons t ts ih =>
    simp only [List.map_cons, List.lookup]
    by_cases hk : tok = t
    · subst hk
      simp
    · rw [show (tok == t) = false from beq_eq_false_iff_ne.mpr hk]
      rcases List.mem_cons.mp h with rfl | h'
      · exact absurd rfl hk
      · exact ih h'

/-- A successful token walk appends exactly the layer's tokens and found
none of them already recorded. -/
theorem checkTokens_ok (toks : List String) (ln : String)
    (sp sp' : List (String × String))
    (h : checkProviderConflictsAux.checkTokens toks ln sp = .ok sp') :
    sp' = sp ++ toks.map (fun t => (t, ln)) ∧ ∀ t ∈ toks, sp.lookup t = none := by
  induction toks generalizing sp with
  | nil =>
    simp only [checkProviderConflictsAux.checkTokens] at h
    cases h
    exact ⟨by simp, by simp⟩
  | cons t ts ih =>
    simp only [checkProviderConflictsAux.checkTokens] at h
    cases hl : sp.lookup t with
    | some ex =>
      rw [hl] at h
      cases h
    | none =>
      rw [hl] at h
      obtain ⟨h1, h2⟩ := ih (sp ++ [(t, ln)]) h
      refine ⟨by rw [h1]; simp, ?_⟩
      intro t' ht'
      rcases List.mem_cons.mp ht' with rfl | ht''
      · exact hl
      · exact (lookup_append_none sp [(t, ln)] t' (h2 t' ht'')).1

/-- A successful scope walk finds every provides token fresh with respect
to the incoming map. -/
theorem conflictsAux_ok_fresh (layers : Layers) (scope : List String)
    (sp : List (String × String))
    (h : checkProviderConflictsAux layers scope sp = .ok ()) :
    ∀ m ∈ scope, ∀ tok ∈ providesOf layers m, sp.lookup tok = none := by
  induction scope generalizing sp with
  | nil =>
    intro m hm
    cases hm
  | cons l rest ih =>
    simp only [checkProviderConflictsAux] at h
    cases hck : checkProviderConflictsAux.checkTokens (providesOf layers l) l sp with
    | error e =>
      rw [hck] at h
      cases h
    | ok sp1 =>
      rw [hck] at h
      obtain ⟨hsp1, hfresh⟩ := checkTokens_ok _ _ _ _ hck
      intro m hm tok htok
      rcases List.mem_cons.mp hm with rfl | hm'
      · exact hfresh tok htok
      · have hlk := ih sp1 h m hm' tok htok
        rw [hsp1] at hlk
        exact (lookup_append_none _ _ _ hlk).1

/-- A successful scope walk means no token is provided by two distinct
layers of the scope. -/
theorem conflictsAux_ok_unique (layers : Layers) (scope : List String)
    (sp : List (String × String))
    (h : checkProviderConflictsAux layers scope sp = .ok ()) :
    ∀ n1 n2 tok, n1 ∈ scope → n2 ∈ scope → n1 ≠ n2 →
      tok ∈ providesOf layers n1 → tok ∈ providesOf layers n2 → False := by
  induction scope generalizing sp with
  | nil =>
    intro n1 n2 tok h1 h2
    cases h1
  | cons l rest ih =>
    simp only [checkProviderConflictsAux] at h
    cases hck : checkProviderConflictsAux.checkTokens (providesOf layers l) l sp with
    | error e =>
      rw [hck] at h
      cases h
    | ok sp1 =>
      rw [hck] at h
      obtain ⟨hsp1, _⟩ := checkTokens_ok _ _ _ _ hck
      intro n1 n2 tok h1 h2 hne ht1 ht2
      rcases List.mem_cons.mp h1 with rfl | h1'
      · rcases List.mem_cons.mp h2 with rfl | h2'
        · exact hne rfl
        · obtain ⟨v, hv⟩ := lookup_map_self (providesOf layers n1) n1 tok ht1
          have hfresh := conflictsAux_ok_fresh layers rest sp1 h n2 h2' tok ht2
          rw [hsp1] at hfresh
          have hmapnone := (lookup_append_none _ _ _ hfresh).2
          rw [hv] at hmapnone
          cases hmapnone
      · rcases List.mem_cons.mp h2 with rfl | h2'
        · obtain ⟨v, hv⟩ := lookup_map_self (providesOf layers n2) n2 tok ht2
          have hfresh := conflictsAux_ok_fresh layers rest sp1 h n1 h1' tok ht1
          rw [hsp1] at hfresh
          have := (lookup_append_none _ _ _ hfresh).2
          rw [hv] at this
          cases this
        · exact ih sp1 h n1 n2 tok h1' h2' hne ht1 ht2

/-- The accumulated provider union equals the concatenation of each
layer's provides tokens. -/
theorem availableProviders_eq (layers : Layers) (order : List String) :
    availableProviders layers order = (order.map (providesOf layers)).flatten := by
  have haux : ∀ (o : List String) (acc : List String),
      o.foldl (fun a n => a ++ providesOf layers n) acc = acc ++ (o.map (providesOf layers)).flatten := by
    intro o
    induction o with
    | nil => intro acc; simp
    | cons x xs ih =>
      intro acc
      simp only [List.foldl_cons, List.map_cons, List.flatten, ih]
      simp
  simpa using haux order []

/-- Membership in the provider union. -/
theorem mem_availableProviders (layers : Layers) (order : List String) (tok : String) :
    tok ∈ availableProviders layers order ↔
      ∃ m ∈ order, tok ∈ providesOf layers m := by
  rw [availableProviders_eq]
  simp only [List.mem_flatten, List.mem_map]
  constructor
  · rintro ⟨l, ⟨m, hm, rfl⟩, htl⟩
    exact ⟨m, hm, htl⟩
  · rintro ⟨m, hm, htok⟩
    exact ⟨providesOf layers m, ⟨m, hm, rfl⟩, htok⟩

/-- A successful requirement walk means every required provider token is
in the available union. -/
theorem checkProviderReqs_ok (layers : Layers) (avail : List String)
    (order : List String) (h : checkProviderReqs layers avail order = .ok ()) :
    ∀ n ∈ order, ∀ rp ∈ providerRequiresOf layers n, avail.contains rp = true := by
  induction order with
  | nil =>
    intro n hn
    cases hn
  | cons l rest ih =>
    simp only [checkProviderReqs] at h
    cases hf : (providerRequiresOf layers l).find? (fun rp => ¬ avail.contains rp) with
    | some rp =>
      rw [hf] at h
      cases h
    | none =>
      rw [hf] at h
      intro n hn rp hrp
      rcases List.mem_cons.mp hn with rfl | hn'
      · have := List.find?_eq_none.mp hf rp hrp
        simpa using this
      · exact ih h n hn' rp hrp

/-- A failing requirement walk reports an actual unsatisfied layer and
token, with the source's message. -/
theorem checkProviderReqs_error (layers : Layers) (avail : List String)
    (order : List String) (e : String)
    (h : checkProviderReqs layers avail order = .error e) :
    ∃ n rp, n ∈ order ∧ rp ∈ providerRequiresOf layers n ∧
      avail.contains rp = false ∧ e = providerReqMsg n rp := by
  induction order with
  | nil =>
    simp only [checkProviderReqs] at h
    cases h
  | cons l rest ih =>
    simp only [checkProviderReqs] at h
    cases hf : (providerRequiresOf layers l).find? (fun rp => ¬ avail.contains rp) with
    | some rp =>
      rw [hf] at h
      cases h
      refine ⟨l, rp, List.mem_cons_self _ _, List.mem_of_find?_eq_some hf, ?_, rfl⟩
      have := List.find?_some hf
      simpa using this
    | none =>
      rw [hf] at h
      obtain ⟨n, rp, hn, hrp, hcon, hmsg⟩ := ih h
      exact ⟨n, rp, List.mem_cons_of_mem _ hn, hrp, hcon, hmsg⟩

/-- Counterexample to C6 as stated: a layer whose `requires_provider`
token is provided only by itself passes `get_build_order` without error,
although no *other* layer in the order provides the token. -/
theorem requires_provider_self_satisfied_cex :
    getBuildOrderFuel [cSelfLayer] ["s"] 3 = some (.ok ["s"]) ∧
    "x" ∈ providerRequiresOf [cSelfLayer] "s" ∧
    (∀ m ∈ ["s"], m ≠ "s" → "x" ∉ providesOf [cSelfLayer] m) := by
  refine ⟨rfl, by decide, by decide⟩

/-- Claim C6 (amended): a successful provider validation means every
layer's required provider tokens are provided by some layer of the order
— possibly the requiring layer itself — and, through the scope conflict
check, by at most one layer; an unsatisfied token makes the validation
fail with the source's message naming an actually unsatisfied layer and
token. -/
theorem requires_provider_union_validation (layers : Layers) (order : List String) :
    (validateProviderRequirements layers order = .ok () →
      (∀ n ∈ order, ∀ rp ∈ providerRequiresOf layers n,
        ∃ m ∈ order, rp ∈ providesOf layers m) ∧
      (∀ n1 n2 tok, n1 ∈ order → n2 ∈ order → n1 ≠ n2 →
        tok ∈ providesOf layers n1 → tok ∈ providesOf layers n2 → False)) ∧
    (checkProviderConflictsInScope layers order = .ok () →
      (∃ n ∈ order, ∃ rp ∈ providerRequiresOf layers n,
        rp ∉ availableProviders layers order) →
      ∃ n rp, n ∈ order ∧ rp ∈ providerRequiresOf layers n ∧
        rp ∉ availableProviders layers order ∧
        validateProviderRequirements layers order =
          .error (providerReqMsg n rp)) := by
  constructor
  · intro hok
    have hconf : checkProviderConflictsInScope layers order = .ok () := by
      revert hok
      simp only [validateProviderRequirements]
      cases checkProviderConflictsInScope layers order with
      | error e =>
        intro hok
        cases hok
      | ok u =>
        intro hok
        cases u
        rfl
    have hreqs : checkProviderReqs layers (availableProviders layers order) order =
        .ok () := by
      revert hok
      simp only [validateProviderRequirements, hconf]
      exact fun h => h
    refine ⟨?_, ?_⟩
    · intro n hn rp hrp
      have := checkProviderReqs_ok layers _ order hreqs n hn rp hrp
      have hmem : rp ∈ availableProviders layers order := by
        simpa using this
      exact (mem_availableProviders layers order rp).mp hmem
    · exact conflictsAux_ok_unique layers order [] hconf
  · intro hconf hunsat
    obtain ⟨n0, hn0, rp0, hrp0, hnot0⟩ := hunsat
    have hval : validateProviderRequirements layers order =
        checkProviderReqs layers (availableProviders layers order) order := by
      simp only [validateProviderRequirements, hconf]
    cases hres : checkProviderReqs layers (availableProviders layers order) order with
    | ok u =>
      cases u
      exfalso
      have := checkProviderReqs_ok layers _ order hres n0 hn0 rp0 hrp0
      exact hnot0 (by simpa using this)
    | error e =>
      obtain ⟨n, rp, hn, hrp, hcon, hmsg⟩ := checkProviderReqs_error layers _ order e hres
      refine ⟨n, rp, hn, hrp, ?_, by rw [hval, hres, hmsg]⟩
      intro hmem
      have : (availableProviders layers order).contains rp = true := by simpa using hmem
      rw [this] at hcon
      cases hcon

/-- Witness for the amended C6 at a concrete input: the self-providing
layer's order passes validation, so its token is provided by a layer of
the order and providers are unique in scope. -/
theorem requires_provider_union_validation_witness :
    (∀ n ∈ ["s"], ∀ rp ∈ providerRequiresOf [cSelfLayer] n,
      ∃ m ∈ ["s"], rp ∈ providesOf [cSelfLayer] m) ∧
    (∀ n1 n2 tok, n1 ∈ ["s"] → n2 ∈ ["s"] → n1 ≠ n2 →
      tok ∈ providesOf [cSelfLayer] n1 → tok ∈ providesOf [cSelfLayer] n2 → False) :=
  (requires_provider_union_validation [cSelfLayer] ["s"]).1 rfl

/-- Claim C5: two layers providing the same token in one build order make
`get_build_order` raise a conflict error naming both layers (shown
generically for the scope check, and on the two-layer instance with the
exact message); the same two layers requested separately pass without
error; and the global provider index keeps the first-loaded provider,
recording the later one only in the conflicts map. -/
theorem provider_conflict_scope_vs_global :
    (∀ (layers : Layers) (order : List String) (n1 n2 tok : String),
      n1 ∈ order → n2 ∈ order → n1 ≠ n2 →
      tok ∈ providesOf layers n1 → tok ∈ providesOf layers n2 →
      ∃ e, checkProviderConflictsInScope layers order = .error e) ∧
    getBuildOrderFuel cProvLayers ["la", "lb"] 3 =
      some (.error (providerConflictMsg "X" "la" "lb")) ∧
    getBuildOrderFuel cProvLayers ["la"] 3 = some (.ok ["la"]) ∧
    getBuildOrderFuel cProvLayers ["lb"] 3 = some (.ok ["lb"]) ∧
    (buildProviderIndex cProvLayers).1.lookup "X" = some "la" ∧
    (∃ ns, (buildProviderIndex cProvLayers).2.lookup "X" = some ns ∧
      "la" ∈ ns ∧ "lb" ∈ ns) := by
  refine ⟨?_, rfl, rfl, rfl, rfl, ⟨["la", "lb"], rfl, by decide, by decide⟩⟩
  intro layers order n1 n2 tok h1 h2 hne ht1 ht2
  cases hres : checkProviderConflictsInScope layers order with
  | error e => exact ⟨e, rfl⟩
  | ok u =>
    cases u
    exact absurd (conflictsAux_ok_unique layers order [] hres n1 n2 tok h1 h2 hne ht1 ht2)
      not_false

/-- Witness for C5's generic conjunct at a concrete input: the two-layer
set with a shared token yields a scope-check error. -/
theorem provider_conflict_scope_vs_global_witness :
    ∃ e, checkProviderConflictsInScope cProvLayers ["la", "lb"] = .error e :=
  provider_conflict_scope_vs_global.1 cProvLayers ["la", "lb"] "la" "lb" "X"
    (by decide) (by decide) (by decide) (by decide) (by decide)

/-- The depth-first order construction diverges on the cycle: at every
fuel, visiting `A` or `B` from a state that has processed neither runs
out of fuel (the Python recursion never returns). -/
theorem addLayerFuel_cycle_diverges (fuel : Nat) (st : BuildState)
    (hA : "A" ∉ st.processed) (hB : "B" ∉ st.processed) :
    addLayerFuel cCycLayers fuel "A" st = none ∧
    addLayerFuel cCycLayers fuel "B" st = none := by
  induction fuel generalizing st with
  | zero => exact ⟨rfl, rfl⟩
  | succ fuel ih =>
    constructor
    · simp only [addLayerFuel, if_neg hA]
      have hdeps : getDependencies cCycLayers "A" = ["B"] := rfl
      rw [hdeps]
      simp only [List.foldl_cons, List.foldl_nil]
      rw [(ih st hA hB).2]
    · simp only [addLayerFuel, if_neg hB]
      have hdeps : getDependencies cCycLayers "B" = ["A"] := rfl
      rw [hdeps]
      simp only [List.foldl_cons, List.foldl_nil]
      rw [(ih st hA hB).1]

/-- A fold of the order construction with a dead accumulator stays dead. -/
theorem buildFold_none (layers : Layers) (fuel : Nat) (ts : List String) :
    ts.foldl
      (fun acc t =>
        match acc with
        | some st => addLayerFuel layers fuel t st
        | none => none)
      (none : Option BuildState) = none := by
  induction ts with
  | nil => rfl
  | cons t ts ih => exact ih

/-- Visiting a name that is not a loaded layer appends only that name (or
returns the state unchanged, or exhausts the fuel). -/
theorem addLayerFuel_unloaded (layers : Layers) (fuel : Nat) (t : String)
    (st : BuildState) (hnl : findLayer layers t = none) :
    addLayerFuel layers fuel t st = none ∨
    addLayerFuel layers fuel t st = some st ∨
    addLayerFuel layers fuel t st = some ⟨st.order ++ [t], st.processed ++ [t]⟩ := by
  cases fuel with
  | zero => exact Or.inl rfl
  | succ f =>
    by_cases hproc : t ∈ st.processed
    · exact Or.inr (Or.inl (by simp [addLayerFuel, hproc]))
    · refine Or.inr (Or.inr ?_)
      simp only [addLayerFuel, if_neg hproc]
      have hdeps : getDependencies layers t = [] := by
        simp [getDependencies, hnl]
      have hopts : getOptionalDependencies layers t = [] := by
        simp [getOptionalDependencies, hnl]
      rw [hdeps, hopts]
      simp only [List.foldl_nil]
      rw [if_neg hproc]

/-- Processing any target list against the cyclic layer set either keeps
the processed set free of `A` and `B`, or has already diverged. -/
theorem buildOrderPass_cycle (fuel : Nat) (targets : List String) (st : BuildState)
    (hA : "A" ∉ st.processed) (hB : "B" ∉ st.processed) :
    (targets.foldl
      (fun acc t =>
        match acc with
        | some st' => addLayerFuel cCycLayers fuel t st'
        | none => none)
      (some st) = none) ∨
    (∃ st', targets.foldl
        (fun acc t =>
          match acc with
          | some st' => addLayerFuel cCycLayers fuel t st'
          | none => none)
        (some st) = some st' ∧ "A" ∉ st'.processed ∧ "B" ∉ st'.processed ∧
      (∀ t ∈ targets, t ≠ "A" ∧ t ≠ "B")) := by
  induction targets generalizing st with
  | nil => exact Or.inr ⟨st, rfl, hA, hB, by simp⟩
  | cons t ts ih =>
    by_cases htA : t = "A"
    · subst htA
      simp only [List.foldl_cons]
      rw [(addLayerFuel_cycle_diverges fuel st hA hB).1]
      exact Or.inl (buildFold_none cCycLayers fuel ts)
    · by_cases htB : t = "B"
      · subst htB
        simp only [List.foldl_cons]
        rw [(addLayerFuel_cycle_diverges fuel st hA hB).2]
        exact Or.inl (buildFold_none cCycLayers fuel ts)
      · -- a target that is neither A nor B is not loaded: it only appends
        -- itself (or was already processed, or the fuel is exhausted)
        have hnotload : findLayer cCycLayers t = none := by
          simp only [findLayer, cCycLayers, List.find?]
          rw [show (cCycA.name == t) = false from
              beq_eq_false_iff_ne.mpr (fun h => htA (h.symm)),
            show (cCycB.name == t) = false from
              beq_eq_false_iff_ne.mpr (fun h => htB (h.symm))]
        rcases addLayerFuel_unloaded cCycLayers fuel t st hnotload with
          hstep | hstep | hstep
        · simp only [List.foldl_cons]
          rw [hstep]
          exact Or.inl (buildFold_none cCycLayers fuel ts)
        · simp only [List.foldl_cons]
          rw [hstep]
          rcases ih st hA hB with h | ⟨st', hfold, hA', hB', hts⟩
          · exact Or.inl h
          · exact Or.inr ⟨st', hfold, hA', hB',
              fun u hu => by
                rcases List.mem_cons.mp hu with rfl | hu'
                · exact ⟨htA, htB⟩
                · exact hts u hu'⟩
        · simp only [List.foldl_cons]
          rw [hstep]
          have hA2 : "A" ∉ st.processed ++ [t] := by
            simp only [List.mem_append, List.mem_singleton]
            rintro (h | h)
            · exact hA h
            · exact htA h.symm
          have hB2 : "B" ∉ st.processed ++ [t] := by
            simp only [List.mem_append, List.mem_singleton]
            rintro (h | h)
            · exact hB h
            · exact htB h.symm
          rcases ih ⟨st.order ++ [t], st.processed ++ [t]⟩ hA2 hB2 with
            h | ⟨st', hfold, hA', hB', hts⟩
          · exact Or.inl h
          · exact Or.inr ⟨st', hfold, hA', hB',
              fun u hu => by
                rcases List.mem_cons.mp hu with rfl | hu'
                · exact ⟨htA, htB⟩
                · exact hts u hu'⟩

/-- Claim C4: on the required-dependency cycle `A → B → A` the cycle
detector reports exactly the cycle chain (at any sufficient fuel — the
Python recursion visits three nodes), the doctor path formats it into the
error message naming the chain, and `get_build_order` never returns a
build order for any target list that needs `A`: its order construction
runs out of every fuel (the Python recursion never returns). -/
theorem circular_dependency_detected_and_diverges :
    (∀ fuel, checkCircularFuel cCycLayers (fuel + 3) "A" [] = some ["A", "B", "A"]) ∧
    circularErrorMsg ["A", "B", "A"] = "Circular dependency detected: A -> B -> A" ∧
    (∀ fuel targets, ("A" ∈ targets ∨ "B" ∈ targets) →
      ∀ order, getBuildOrderFuel cCycLayers targets fuel ≠ some (.ok order)) := by
  refine ⟨?_, rfl, ?_⟩
  · intro fuel
    simp [checkCircularFuel, cCycLayers, cCycA, cCycB, getDependencies, findLayer]
  · intro fuel targets hT order hok
    simp only [getBuildOrderFuel] at hok
    cases hcm : checkAllMissing cCycLayers targets fuel with
    | none =>
      rw [hcm] at hok
      cases hok
    | some r =>
      cases r with
      | error e =>
        rw [hcm] at hok
        cases hok
      | ok u =>
        rw [hcm] at hok
        rcases buildOrderPass_cycle fuel targets ⟨[], []⟩ (by simp) (by simp) with
          h | ⟨st', hfold, _, _, hts⟩
        · rw [show buildOrderPass cCycLayers targets fuel = none from h] at hok
          cases hok
        · rcases hT with hA | hB
          · exact (hts "A" hA).1 rfl
          · exact (hts "B" hB).2 rfl

/-- Witness for C4 at concrete inputs: fuel three finds the chain, and a
concrete call needing `A` returns no order. -/
theorem circular_dependency_detected_and_diverges_witness :
    checkCircularFuel cCycLayers 3 "A" [] = some ["A", "B", "A"] ∧
    getBuildOrderFuel cCycLayers ["A"] 9 ≠ some (.ok []) :=
  ⟨circular_dependency_detected_and_diverges.1 0,
    circular_dependency_detected_and_diverges.2.2 9 ["A"] (Or.inl (by decide)) []⟩

/-- Unfold a successful layer lookup. -/
theorem layer_of_isSome (layers : Layers) (name : String)
    (h : (findLayer layers name).isSome) :
    ∃ l, findLayer layers name = some l ∧ l ∈ layers ∧ l.name = name := by
  cases hf : findLayer layers name with
  | none => rw [hf] at h; cases h
  | some l =>
    refine ⟨l, rfl, List.mem_of_find?_eq_some hf, ?_⟩
    have := List.find?_some hf
    simpa using this

/-- Facts about a loaded layer's required dependencies: loaded (closure)
and of smaller rank (acyclicity). -/
theorem deps_facts (layers : Layers) (rank : String → Nat)
    (hclosed : ∀ l ∈ layers, ∀ d ∈ l.depends, (findLayer layers d).isSome)
    (hrank : ∀ l ∈ layers, ∀ d ∈ l.depends, rank d < rank l.name)
    (name : String) (hload : (findLayer layers name).isSome) :
    ∀ d ∈ getDependencies layers name,
      (findLayer layers d).isSome ∧ rank d < rank name := by
  obtain ⟨l, hf, hmem, hname⟩ := layer_of_isSome layers name hload
  intro d hd
  rw [getDependencies, hf] at hd
  exact ⟨hclosed l hmem d hd, hname ▸ hrank l hmem d hd⟩

/-- Optional dependencies of a loaded layer are empty in this pipeline
(`EnvLayer.to_dict` emits `optional_depends: []`). -/
theorem opts_nil (layers : Layers)
    (hopt : ∀ l ∈ layers, l.optional_depends = [])
    (name : String) : getOptionalDependencies layers name = [] := by
  cases hf : findLayer layers name with
  | none => rw [getOptionalDependencies, hf]
  | some l =>
    rw [getOptionalDependencies, hf]
    exact hopt l (List.mem_of_find?_eq_some hf)

/-- Success and invariants of `add_layer_and_deps` under closure and
acyclicity, with fuel above the visited layer's rank: the call returns, the
invariant is preserved, the order only grows at the end, and the layer is
in the result. -/
theorem addLayerFuel_good (layers : Layers) (rank : String → Nat)
    (hopt : ∀ l ∈ layers, l.optional_depends = [])
    (hclosed : ∀ l ∈ layers, ∀ d ∈ l.depends, (findLayer layers d).isSome)
    (hrank : ∀ l ∈ layers, ∀ d ∈ l.depends, rank d < rank l.name) :
    ∀ fuel name st, (findLayer layers name).isSome → rank name < fuel →
      GoodState layers st →
      ∃ st', addLayerFuel layers fuel name st = some st' ∧ GoodState layers st' ∧
        st.order <+: st'.order ∧ name ∈ st'.order := by
  intro fuel
  induction fuel with
  | zero =>
    intro name st _ hr
    omega
  | succ fuel ih =>
    intro name st hload hr hgood
    by_cases hproc : name ∈ st.processed
    · refine ⟨st, by simp [addLayerFuel, hproc], hgood, List.prefix_refl _, ?_⟩
      rw [hgood.1] at hproc
      exact hproc
    · have hdf := deps_facts layers rank hclosed hrank name hload
      have hfold : ∀ (ds : List String),
          (∀ d ∈ ds, (findLayer layers d).isSome ∧ rank d < fuel) →
          ∀ st0, GoodState layers st0 →
          ∃ st1, ds.foldl
              (fun acc dep =>
                match acc with
                | some st' => addLayerFuel layers fuel dep st'
                | none => none)
              (some st0) = some st1 ∧ GoodState layers st1 ∧
            st0.order <+: st1.order ∧ ∀ d ∈ ds, d ∈ st1.order := by
        intro ds
        induction ds with
        | nil =>
          intro _ st0 hg
          exact ⟨st0, rfl, hg, List.prefix_refl _, by simp⟩
        | cons d ds ihds =>
          intro hdds st0 hg
          obtain ⟨st1, heq1, hg1, hp1, hmem1⟩ :=
            ih d st0 (hdds d (List.mem_cons_self _ _)).1 (hdds d (List.mem_cons_self _ _)).2 hg
          obtain ⟨st2, heq2, hg2, hp2, hmem2⟩ :=
            ihds (fun x hx => hdds x (List.mem_cons_of_mem _ hx)) st1 hg1
          refine ⟨st2, ?_, hg2, hp1.trans hp2, ?_⟩
          · simp only [List.foldl_cons]
            rw [heq1]
            exact heq2
          · intro x hx
            rcases List.mem_cons.mp hx with rfl | hx'
            · exact hp2.subset hmem1
            · exact hmem2 x hx'
      obtain ⟨st1, heqf, hg1, hp1, hmemds⟩ := hfold (getDependencies layers name)
        (fun d hd => ⟨(hdf d hd).1, lt_of_lt_of_le (hdf d hd).2 (Nat.lt_succ_iff.mp hr)⟩)
        st hgood
      have hoptnil := opts_nil layers hopt name
      by_cases hproc2 : name ∈ st1.processed
      · refine ⟨st1, ?_, hg1, hp1, ?_⟩
        · simp only [addLayerFuel, if_neg hproc]
          rw [heqf, hoptnil]
          simp only [List.foldl_nil]
          rw [if_pos hproc2]
        · rw [hg1.1] at hproc2
          exact hproc2
      · have hnin : name ∉ st1.order := by
          rw [← hg1.1]
          exact hproc2
        refine ⟨⟨st1.order ++ [name], st1.processed ++ [name]⟩, ?_, ?_, ?_, ?_⟩
        · simp only [addLayerFuel, if_neg hproc]
          rw [heqf, hoptnil]
          simp only [List.foldl_nil]
          rw [if_neg hproc2]
        · refine ⟨by rw [hg1.1], ?_, ?_⟩
          · simp [List.nodup_append, hg1.2.1, hnin]
          · intro m hm
            rcases List.mem_append.mp hm with hm' | hm'
            · obtain ⟨hml, hmd⟩ := hg1.2.2 m hm'
              refine ⟨hml, ?_⟩
              intro d hd
              obtain ⟨hdin, hdlt⟩ := hmd d hd
              refine ⟨List.mem_append.mpr (Or.inl hdin), ?_⟩
              rw [List.indexOf_append_of_mem hdin, List.indexOf_append_of_mem hm']
              exact hdlt
            · have hm'' : m = name := by simpa using hm'
              subst hm''
              refine ⟨hload, ?_⟩
              intro d hd
              have hdin : d ∈ st1.order := hmemds d hd
              refine ⟨List.mem_append.mpr (Or.inl hdin), ?_⟩
              rw [List.indexOf_append_of_mem hdin,
                List.indexOf_append_of_not_mem hnin]
              have h1 : st1.order.indexOf d < st1.order.length :=
                List.indexOf_lt_length.mpr hdin
              simp only [List.indexOf_cons_self]
              omega
        · exact hp1.trans ⟨[name], rfl⟩
        · exact List.mem_append.mpr (Or.inr (List.mem_singleton.mpr rfl))

/-- Success and invariants of the targets pass of `get_build_order`. -/
theorem buildOrderPass_good (layers : Layers) (rank : String → Nat)
    (hopt : ∀ l ∈ layers, l.optional_depends = [])
    (hclosed : ∀ l ∈ layers, ∀ d ∈ l.depends, (findLayer layers d).isSome)
    (hrank : ∀ l ∈ layers, ∀ d ∈ l.depends, rank d < rank l.name)
    (targets : List String) (fuel : Nat)
    (htgt : ∀ t ∈ targets, (findLayer layers t).isSome)
    (hfuel : ∀ t ∈ targets, rank t < fuel) :
    ∃ st, buildOrderPass layers targets fuel = some st ∧ GoodState layers st ∧
      ∀ t ∈ targets, t ∈ st.order := by
  have haux : ∀ (ts : List String), (∀ t ∈ ts, (findLayer layers t).isSome) →
      (∀ t ∈ ts, rank t < fuel) →
      ∀ st0, GoodState layers st0 →
      ∃ st1, ts.foldl
          (fun acc t =>
            match acc with
            | some st' => addLayerFuel layers fuel t st'
            | none => none)
          (some st0) = some st1 ∧ GoodState layers st1 ∧
        st0.order <+: st1.order ∧ ∀ t ∈ ts, t ∈ st1.order := by
    intro ts
    induction ts with
    | nil =>
      intro _ _ st0 hg
      exact ⟨st0, rfl, hg, List.prefix_refl _, by simp⟩
    | cons t ts ihts =>
      intro hl hf st0 hg
      obtain ⟨st1, heq1, hg1, hp1, hmem1⟩ :=
        addLayerFuel_good layers rank hopt hclosed hrank fuel t st0
          (hl t (List.mem_cons_self _ _)) (hf t (List.mem_cons_self _ _)) hg
      obtain ⟨st2, heq2, hg2, hp2, hmem2⟩ :=
        ihts (fun x hx => hl x (List.mem_cons_of_mem _ hx))
          (fun x hx => hf x (List.mem_cons_of_mem _ hx)) st1 hg1
      refine ⟨st2, ?_, hg2, hp1.trans hp2, ?_⟩
      · simp only [List.foldl_cons]
        rw [heq1]
        exact heq2
      · intro x hx
        rcases List.mem_cons.mp hx with rfl | hx'
        · exact hp2.subset hmem1
        · exact hmem2 x hx'
  obtain ⟨st1, heq, hg, _, hmem⟩ := haux targets htgt hfuel ⟨[], []⟩
    ⟨rfl, List.nodup_nil, by simp⟩
  exact ⟨st1, heq, hg, hmem⟩

/-- One-step unfolding of the order construction at a name not yet
processed (kept as a lemma so only the outer call unfolds). -/
theorem addLayerFuel_succ_unfold (layers : Layers) (fuel : Nat) (name : String)
    (st : BuildState) (hproc : name ∉ st.processed) :
    addLayerFuel layers (fuel + 1) name st =
      (match
        (match (getDependencies layers name).foldl
            (fun acc dep =>
              match acc with
              | some st' => addLayerFuel layers fuel dep st'
              | none => none)
            (some st) with
        | none => none
        | some st1 =>
          (getOptionalDependencies layers name).foldl
            (fun acc dep =>
              match acc with
              | some st' =>
                if (findLayer layers dep).isSome = true then
                  addLayerFuel layers fuel dep st'
                else some st'
              | none => none)
            (some st1)) with
      | none => none
      | some st2 =>
        if name ∈ st2.processed then some st2
        else some ⟨st2.order ++ [name], st2.processed ++ [name]⟩) := by
  simp only [addLayerFuel, if_neg hproc]

/-- Fuel monotonicity of the order construction. -/
theorem addLayerFuel_mono (layers : Layers) :
    ∀ fuel name st st', addLayerFuel layers fuel name st = some st' →
      addLayerFuel layers (fuel + 1) name st = some st' := by
  intro fuel
  induction fuel with
  | zero =>
    intro name st st' h
    cases h
  | succ fuel ih =>
    intro name st st' h
    by_cases hproc : name ∈ st.processed
    · simp only [addLayerFuel, if_pos hproc] at h ⊢
      exact h
    · have hmono1 : ∀ (ds : List String) (st0 st1 : BuildState),
          ds.foldl
            (fun acc dep =>
              match acc with
              | some st2 => addLayerFuel layers fuel dep st2
              | none => none)
            (some st0) = some st1 →
          ds.foldl
            (fun acc dep =>
              match acc with
              | some st2 => addLayerFuel layers (fuel + 1) dep st2
              | none => none)
            (some st0) = some st1 := by
        intro ds
        induction ds with
        | nil =>
          intro st0 st1 h0
          exact h0
        | cons d ds ihds =>
          intro st0 st1 h0
          simp only [List.foldl_cons] at h0 ⊢
          cases hstep : addLayerFuel layers fuel d st0 with
          | none =>
            rw [hstep] at h0
            rw [buildFold_none] at h0
            cases h0
          | some stm =>
            rw [hstep] at h0
            rw [ih d st0 stm hstep]
            exact ihds stm st1 h0
      have hnonefold : ∀ (f2 : Nat) (l : List String),
          l.foldl
            (fun acc dep =>
              match acc with
              | some st2 =>
                if (findLayer layers dep).isSome = true then
                  addLayerFuel layers f2 dep st2
                else some st2
              | none => none)
            (none : Option BuildState) = none := by
        intro f2 l
        induction l with
        | nil => rfl
        | cons x xs ihx => exact ihx
      have hmono2 : ∀ (ds : List String) (st0 st1 : BuildState),
          ds.foldl
            (fun acc dep =>
              match acc with
              | some st2 =>
                if (findLayer layers dep).isSome = true then
                  addLayerFuel layers fuel dep st2
                else some st2
              | none => none)
            (some st0) = some st1 →
          ds.foldl
            (fun acc dep =>
              match acc with
              | some st2 =>
                if (findLayer layers dep).isSome = true then
                  addLayerFuel layers (fuel + 1) dep st2
                else some st2
              | none => none)
            (some st0) = some st1 := by
        intro ds
        induction ds with
        | nil =>
          intro st0 st1 h0
          exact h0
        | cons d ds ihds =>
          intro st0 st1 h0
          simp only [List.foldl_cons] at h0 ⊢
          by_cases hload : (findLayer layers d).isSome = true
          · rw [if_pos hload] at h0 ⊢
            cases hstep : addLayerFuel layers fuel d st0 with
            | none =>
              rw [hstep] at h0
              rw [hnonefold fuel ds] at h0
              cases h0
            | some stm =>
              rw [hstep] at h0
              rw [ih d st0 stm hstep]
              exact ihds stm st1 h0
          · rw [if_neg hload] at h0 ⊢
            exact ihds st0 st1 h0
      rw [addLayerFuel_succ_unfold layers fuel name st hproc] at h
      rw [addLayerFuel_succ_unfold layers (fuel + 1) name st hproc]
      cases hf1 : (getDependencies layers name).foldl
          (fun acc dep =>
            match acc with
            | some st2 => addLayerFuel layers fuel dep st2
            | none => none)
          (some st) with
      | none =>
        simp only [hf1] at h
        cases h
      | some stm =>
        simp only [hf1] at h
        simp only [hmono1 _ _ _ hf1]
        cases hf2 : (getOptionalDependencies layers name).foldl
            (fun acc dep =>
              match acc with
              | some st2 =>
                if (findLayer layers dep).isSome = true then
                  addLayerFuel layers fuel dep st2
                else some st2
              | none => none)
            (some stm) with
        | none =>
          simp only [hf2] at h
          cases h
        | some stn =>
          simp only [hf2] at h
          simp only [hmono2 _ _ _ hf2]
          exact h

/-- Fuel weakening of the order construction. -/
theorem addLayerFuel_le (layers : Layers) (f1 f2 : Nat) (h : f1 ≤ f2)
    (name : String) (st st' : BuildState)
    (heq : addLayerFuel layers f1 name st = some st') :
    addLayerFuel layers f2 name st = some st' := by
  induction h with
  | refl => exact heq
  | step _ ih => exact addLayerFuel_mono layers _ name st st' ih

/-- Fuel weakening of the targets pass. -/
theorem buildOrderPass_le (layers : Layers) (targets : List String) (f1 f2 : Nat)
    (h : f1 ≤ f2) (st : BuildState)
    (heq : buildOrderPass layers targets f1 = some st) :
    buildOrderPass layers targets f2 = some st := by
  have haux : ∀ (ts : List String) (st0 st1 : BuildState),
      ts.foldl
        (fun acc t =>
          match acc with
          | some st2 => addLayerFuel layers f1 t st2
          | none => none)
        (some st0) = some st1 →
      ts.foldl
        (fun acc t =>
          match acc with
          | some st2 => addLayerFuel layers f2 t st2
          | none => none)
        (some st0) = some st1 := by
    intro ts
    induction ts with
    | nil =>
      intro st0 st1 h0
      exact h0
    | cons t ts ihts =>
      intro st0 st1 h0
      simp only [List.foldl_cons] at h0 ⊢
      cases hstep : addLayerFuel layers f1 t st0 with
      | none =>
        rw [hstep] at h0
        rw [buildFold_none] at h0
        cases h0
      | some stm =>
        rw [hstep] at h0
        rw [addLayerFuel_le layers f1 f2 h t st0 stm hstep]
        exact ihts stm st1 h0
  exact haux targets ⟨[], []⟩ st heq

/-- Success of the missing-dependency pre-validation for a loaded name
with fuel above its rank. -/
theorem checkMissingFuel_ok (layers : Layers) (rank : String → Nat)
    (hclosed : ∀ l ∈ layers, ∀ d ∈ l.depends, (findLayer layers d).isSome)
    (hrank : ∀ l ∈ layers, ∀ d ∈ l.depends, rank d < rank l.name) :
    ∀ fuel name checked, (findLayer layers name).isSome → rank name < fuel →
      ∃ checked', checkMissingFuel layers fuel name checked = some (.ok checked') := by
  intro fuel
  induction fuel with
  | zero =>
    intro name checked _ hr
    omega
  | succ fuel ih =>
    intro name checked hload hr
    by_cases hch : name ∈ checked
    · exact ⟨checked, by simp [checkMissingFuel, hch]⟩
    · have hdf := deps_facts layers rank hclosed hrank name hload
      have hnn : ¬ (findLayer layers name).isNone = true := by
        cases hfl : findLayer layers name with
        | none => rw [hfl] at hload; cases hload
        | some l => simp
      have hfold : ∀ (ds : List String),
          (∀ d ∈ ds, (findLayer layers d).isSome ∧ rank d < fuel) →
          ∀ ch0, ∃ ch1, ds.foldl
              (fun (acc : Option (Except String (List String))) dep =>
                match acc with
                | some (Except.ok ch) => checkMissingFuel layers fuel dep ch
                | other => other)
              (some (Except.ok ch0)) = some (Except.ok ch1) := by
        intro ds
        induction ds with
        | nil =>
          intro _ ch0
          exact ⟨ch0, rfl⟩
        | cons d ds ihds =>
          intro hdds ch0
          obtain ⟨ch1, heq1⟩ :=
            ih d ch0 (hdds d (List.mem_cons_self _ _)).1 (hdds d (List.mem_cons_self _ _)).2
          obtain ⟨ch2, heq2⟩ := ihds (fun x hx => hdds x (List.mem_cons_of_mem _ hx)) ch1
          refine ⟨ch2, ?_⟩
          simp only [List.foldl_cons]
          rw [heq1]
          exact heq2
      obtain ⟨ch1, heq⟩ := hfold (getDependencies layers name)
        (fun d hd => ⟨(hdf d hd).1, lt_of_lt_of_le (hdf d hd).2 (Nat.lt_succ_iff.mp hr)⟩)
        (checked ++ [name])
      refine ⟨ch1, ?_⟩
      simp only [checkMissingFuel, if_neg hch]
      rw [if_neg hnn]
      exact heq

/-- Success of the whole pre-validation pass. -/
theorem checkAllMissing_ok (layers : Layers) (rank : String → Nat)
    (hclosed : ∀ l ∈ layers, ∀ d ∈ l.depends, (findLayer layers d).isSome)
    (hrank : ∀ l ∈ layers, ∀ d ∈ l.depends, rank d < rank l.name)
    (targets : List String) (fuel : Nat)
    (htgt : ∀ t ∈ targets, (findLayer layers t).isSome)
    (hfuel : ∀ t ∈ targets, rank t < fuel) :
    checkAllMissing layers targets fuel = some (.ok ()) := by
  induction targets with
  | nil => rfl
  | cons t ts ihts =>
    obtain ⟨ch, hch⟩ := checkMissingFuel_ok layers rank hclosed hrank fuel t []
      (htgt t (List.mem_cons_self _ _)) (hfuel t (List.mem_cons_self _ _))
    have step : checkAllMissing layers (t :: ts) fuel =
        checkAllMissing layers ts fuel := by
      simp only [checkAllMissing, List.foldl_cons]
      rw [hch]
    rw [step]
    exact ihts (fun x hx => htgt x (List.mem_cons_of_mem _ hx))
      (fun x hx => hfuel x (List.mem_cons_of_mem _ hx))

/-- Claim C3: for every loaded layer set that is closed under required
dependencies and acyclic (witnessed by a rank function decreasing along
required edges, with all optional-dependency lists empty as the loader
produces them) and every target list, the order construction of
`get_build_order` returns an order in which every required dependency
precedes its dependent, containing every target and every transitive
required dependency exactly once, identical at every sufficient fuel (the
construction is deterministic); the missing-dependency pre-validation
passes, and whenever provider validation accepts the order,
`get_build_order` returns exactly it. -/
theorem get_build_order_topological (layers : Layers) (targets : List String)
    (rank : String → Nat) (fuel : Nat)
    (hopt : ∀ l ∈ layers, l.optional_depends = [])
    (hclosed : ∀ l ∈ layers, ∀ d ∈ l.depends, (findLayer layers d).isSome)
    (hrank : ∀ l ∈ layers, ∀ d ∈ l.depends, rank d < rank l.name)
    (htgt : ∀ t ∈ targets, (findLayer layers t).isSome)
    (hfuel : ∀ t ∈ targets, rank t < fuel) :
    ∃ st : BuildState,
      buildOrderPass layers targets fuel = some st ∧
      st.order.Nodup ∧
      (∀ t ∈ targets, t ∈ st.order) ∧
      (∀ m ∈ st.order, (findLayer layers m).isSome ∧
        ∀ d ∈ getDependencies layers m, d ∈ st.order ∧
          st.order.indexOf d < st.order.indexOf m) ∧
      (∀ fuel', (∀ t ∈ targets, rank t < fuel') →
        buildOrderPass layers targets fuel' = some st) ∧
      checkAllMissing layers targets fuel = some (.ok ()) ∧
      (validateProviderRequirements layers st.order = .ok () →
        getBuildOrderFuel layers targets fuel = some (.ok st.order)) := by
  obtain ⟨st, hpass, hgood, hmem⟩ :=
    buildOrderPass_good layers rank hopt hclosed hrank targets fuel htgt hfuel
  have hall := checkAllMissing_ok layers rank hclosed hrank targets fuel htgt hfuel
  refine ⟨st, hpass, hgood.2.1, hmem, hgood.2.2, ?_, hall, ?_⟩
  · intro fuel' hfuel'
    obtain ⟨st2, hpass2, _, _⟩ :=
      buildOrderPass_good layers rank hopt hclosed hrank targets fuel' htgt hfuel'
    rcases Nat.le_total fuel fuel' with hle | hle
    · have := buildOrderPass_le layers targets fuel fuel' hle st hpass
      rw [this] at hpass2
      cases hpass2
      exact this
    · have := buildOrderPass_le layers targets fuel' fuel hle st2 hpass2
      rw [hpass] at this
      cases this
      exact hpass2
  · intro hprov
    simp only [getBuildOrderFuel, hall, hpass, hprov]

/-- Witness for C3 at a concrete input. -/
theorem get_build_order_topological_witness :
    ∃ st : BuildState,
      buildOrderPass [cBase, cApp] ["app"] 2 = some st ∧
      st.order.Nodup ∧
      (∀ t ∈ ["app"], t ∈ st.order) ∧
      (∀ m ∈ st.order, (findLayer [cBase, cApp] m).isSome ∧
        ∀ d ∈ getDependencies [cBase, cApp] m, d ∈ st.order ∧
          st.order.indexOf d < st.order.indexOf m) ∧
      (∀ fuel', (∀ t ∈ ["app"], cRank t < fuel') →
        buildOrderPass [cBase, cApp] ["app"] fuel' = some st) ∧
      checkAllMissing [cBase, cApp] ["app"] 2 = some (.ok ()) ∧
      (validateProviderRequirements [cBase, cApp] st.order = .ok () →
        getBuildOrderFuel [cBase, cApp] ["app"] 2 = some (.ok st.order)) :=
  get_build_order_topological [cBase, cApp] ["app"] cRank 2
    (by decide) (by decide) (by decide) (by decide) (by decide)

/-- Matching the empty pattern always succeeds. -/
theorem sw_nil (t : List Char) : startsWithChars t [] = true := by
  cases t <;> rfl

/-- One-character pattern reduces to a head comparison. -/
theorem sw_single (d a : Char) (t : List Char) :
    startsWithChars (d :: t) [a] = decide (d = a) := by
  simp [startsWithChars, sw_nil]

/-- Inverting a successful one-character pattern match. -/
theorem sw_single_inv (a : Char) (X : List Char)
    (h : startsWithChars X [a] = true) : ∃ r, X = a :: r := by
  cases X with
  | nil => exact absurd h (by simp [startsWithChars])
  | cons d t =>
    rw [sw_single] at h
    exact ⟨t, by rw [of_decide_eq_true h]⟩

/-- Inverting a successful dollar-brace pattern match. -/
theorem sw_db_inv (X : List Char)
    (h : startsWithChars X ['$', '{'] = true) : ∃ r, X = '$' :: '{' :: r := by
  cases X with
  | nil => exact absurd h (by simp [startsWithChars])
  | cons d t =>
    simp only [startsWithChars, Bool.and_eq_true, decide_eq_true_eq] at h
    obtain ⟨r, rfl⟩ := sw_single_inv '{' t h.2
    exact ⟨r, by rw [h.1]⟩

/-- Unfolding `scanF` at exhausted fuel. -/
theorem scanF_zero (ph : List (List Char × List Char)) (s : List Char) :
    scanF ph 0 s = s := rfl

/-- Unfolding `scanF` on the empty input. -/
theorem scanF_nil (ph : List (List Char × List Char)) (f : Nat) :
    scanF ph (f + 1) [] = [] := rfl

/-- Unfolding `scanF` on an escaped dollar-brace: the backslash is
consumed and a literal dollar-brace is emitted. -/
theorem scanF_esc (ph : List (List Char × List Char)) (f : Nat) (r : List Char) :
    scanF ph (f + 1) ('\\' :: '$' :: '{' :: r) = '$' :: '{' :: scanF ph f r := by
  have hsw : startsWithChars ('$' :: '{' :: r) ['$', '{'] = true := by
    simp [startsWithChars, sw_nil]
  simp only [scanF]
  rw [if_pos ⟨by trivial, hsw⟩]
  rfl

/-- Unfolding `scanF` on a known placeholder: the match is replaced by
the stored value and scanning resumes after the closing brace. -/
theorem scanF_known (ph : List (List Char × List Char)) (f : Nat)
    (r2 nm r3 v : List Char) (hp : parsePH r2 = some (nm, r3))
    (hv : lookupPH ph nm = some v) :
    scanF ph (f + 1) ('$' :: '{' :: r2) = v ++ scanF ph f r3 := by
  have hsw : startsWithChars ('{' :: r2) ['{'] = true := by
    simp [startsWithChars, sw_nil]
  simp only [scanF]
  rw [if_neg (fun h => absurd h.1 (by decide)), if_pos ⟨by trivial, hsw⟩]
  simp only [List.drop_succ_cons, List.drop_zero, hp, hv]

/-- Unfolding `scanF` on an unknown placeholder: `re.sub` leaves the full
match verbatim and continues after it. -/
theorem scanF_unknown (ph : List (List Char × List Char)) (f : Nat)
    (r2 nm r3 : List Char) (hp : parsePH r2 = some (nm, r3))
    (hv : lookupPH ph nm = none) :
    scanF ph (f + 1) ('$' :: '{' :: r2) =
      '$' :: '{' :: (nm ++ '}' :: scanF ph f r3) := by
  have hsw : startsWithChars ('{' :: r2) ['{'] = true := by
    simp [startsWithChars, sw_nil]
  simp only [scanF]
  rw [if_neg (fun h => absurd h.1 (by decide)), if_pos ⟨by trivial, hsw⟩]
  simp only [List.drop_succ_cons, List.drop_zero, hp, hv]

/-- Unfolding `scanF` on a malformed placeholder: no match can start at
this dollar sign, so it is copied and scanning resumes at the brace. -/
theorem scanF_pnone (ph : List (List Char × List Char)) (f : Nat)
    (r2 : List Char) (hp : parsePH r2 = none) :
    scanF ph (f + 1) ('$' :: '{' :: r2) = '$' :: scanF ph f ('{' :: r2) := by
  have hsw : startsWithChars ('{' :: r2) ['{'] = true := by
    simp [startsWithChars, sw_nil]
  simp only [scanF]
  rw [if_neg (fun h => absurd h.1 (by decide)), if_pos ⟨by trivial, hsw⟩]
  simp only [List.drop_succ_cons, List.drop_zero, hp]

/-- Unfolding `scanF` on a character that starts no match: it is copied
verbatim. -/
theorem scanF_other (ph : List (List Char × List Char)) (f : Nat)
    (c : Char) (rest : List Char)
    (h1 : ¬(c = '\\' ∧ startsWithChars rest ['$', '{'] = true))
    (h2 : ¬(c = '$' ∧ startsWithChars rest ['{'] = true)) :
    scanF ph (f + 1) (c :: rest) = c :: scanF ph f rest := by
  simp only [scanF]
  rw [if_neg h1, if_neg h2]

/-- Unfolding `inertF` at exhausted fuel. -/
theorem inertF_zero (ph : List (List Char × List Char)) (s : List Char) :
    inertF ph 0 s = true := rfl

/-- The empty input is inert at every fuel. -/
theorem inertF_nil (ph : List (List Char × List Char)) (g : Nat) :
    inertF ph g [] = true := by
  cases g <;> rfl

/-- Unfolding `inertF` on a well-formed placeholder occurrence. -/
theorem inertF_psome (ph : List (List Char × List Char)) (g : Nat)
    (r2 nm r3 : List Char) (hp : parsePH r2 = some (nm, r3)) :
    inertF ph (g + 1) ('$' :: '{' :: r2) =
      ((lookupPH ph nm).isNone && inertF ph g r3) := by
  have hsw : startsWithChars ('{' :: r2) ['{'] = true := by
    simp [startsWithChars, sw_nil]
  simp only [inertF]
  rw [if_neg (fun h => absurd h.1 (by decide)), if_pos ⟨by trivial, hsw⟩]
  simp only [List.drop_succ_cons, List.drop_zero, hp]

/-- Unfolding `inertF` on a malformed placeholder occurrence. -/
theorem inertF_pnone (ph : List (List Char × List Char)) (g : Nat)
    (r2 : List Char) (hp : parsePH r2 = none) :
    inertF ph (g + 1) ('$' :: '{' :: r2) = inertF ph g ('{' :: r2) := by
  have hsw : startsWithChars ('{' :: r2) ['{'] = true := by
    simp [startsWithChars, sw_nil]
  simp only [inertF]
  rw [if_neg (fun h => absurd h.1 (by decide)), if_pos ⟨by trivial, hsw⟩]
  simp only [List.drop_succ_cons, List.drop_zero, hp]

/-- Unfolding `inertF` on a character that starts no match. -/
theorem inertF_other (ph : List (List Char × List Char)) (g : Nat)
    (c : Char) (rest : List Char)
    (h1 : ¬(c = '\\' ∧ startsWithChars rest ['$', '{'] = true))
    (h2 : ¬(c = '$' ∧ startsWithChars rest ['{'] = true)) :
    inertF ph (g + 1) (c :: rest) = inertF ph g rest := by
  simp only [inertF]
  rw [if_neg h1, if_neg h2]

/-- A name-start character is also a name character. -/
theorem nameStart_nameChar (c : Char) (h : isNameStart c = true) :
    isNameChar c = true := by
  simp [isNameChar, h]

/-- Dropping the name class over a run of name characters stops exactly at
the first non-name character. -/
theorem dropWhile_stop (w : List Char) (d : Char) (t : List Char)
    (hw : ∀ x ∈ w, isNameChar x = true) (hd : isNameChar d = false) :
    (w ++ d :: t).dropWhile isNameChar = d :: t := by
  induction w with
  | nil => simp [List.dropWhile_cons, hd]
  | cons a w' ihw =>
    have ha := hw a (List.mem_cons_self _ _)
    simp only [List.cons_append, List.dropWhile_cons, ha, if_true]
    exact ihw (fun x hx => hw x (List.mem_cons_of_mem _ hx))

/-- Taking the name class over a run of name characters keeps exactly the
run. -/
theorem takeWhile_stop (w : List Char) (d : Char) (t : List Char)
    (hw : ∀ x ∈ w, isNameChar x = true) (hd : isNameChar d = false) :
    (w ++ d :: t).takeWhile isNameChar = w := by
  induction w with
  | nil => simp [List.takeWhile_cons, hd]
  | cons a w' ihw =>
    have ha := hw a (List.mem_cons_self _ _)
    simp only [List.cons_append, List.takeWhile_cons, ha, if_true]
    rw [ihw (fun x hx => hw x (List.mem_cons_of_mem _ hx))]

/-- Soundness of `parsePH`: a successful parse decomposes the input into
a well-formed name, the closing brace, and the remainder. -/
theorem parsePH_sound (cs nm rest : List Char)
    (h : parsePH cs = some (nm, rest)) :
    ∃ c w, nm = c :: w ∧ isNameStart c = true ∧ (∀ x ∈ w, isNameChar x = true) ∧
      cs = nm ++ '}' :: rest := by
  cases cs with
  | nil => exact absurd h (by simp [parsePH])
  | cons c r =>
    simp only [parsePH] at h
    by_cases hc : isNameStart c = true
    · rw [if_pos hc] at h
      by_cases hsw : startsWithChars (r.dropWhile isNameChar) ['}'] = true
      · rw [if_pos hsw] at h
        obtain ⟨t, hdrop⟩ := sw_single_inv '}' _ hsw
        injection h with h'
        injection h' with hnm hrest
        refine ⟨c, r.takeWhile isNameChar, hnm.symm, hc,
          fun x hx => List.mem_takeWhile_imp hx, ?_⟩
        rw [← hnm, ← hrest, hdrop]
        simp only [List.cons_append, List.drop_succ_cons, List.drop_zero,
          List.cons.injEq, true_and]
        conv_lhs => rw [← List.takeWhile_append_dropWhile (p := isNameChar) (l := r)]
        rw [hdrop]
      · rw [if_neg hsw] at h
        exact absurd h (by simp)
    · rw [if_neg hc] at h
      exact absurd h (by simp)

/-- Completeness of `parsePH`: a well-formed name followed by a closing
brace parses back to exactly that name. -/
theorem parsePH_complete (c : Char) (w t : List Char)
    (hc : isNameStart c = true) (hw : ∀ x ∈ w, isNameChar x = true) :
    parsePH (c :: (w ++ '}' :: t)) = some (c :: w, t) := by
  have hbr : isNameChar '}' = false := by decide
  simp only [parsePH, hc, if_true]
  rw [dropWhile_stop w '}' t hw hbr, takeWhile_stop w '}' t hw hbr]
  rw [if_pos (by simp [sw_single])]
  simp

/-- A list with a bad head can never be parsed as a placeholder. -/
theorem parsePH_headBad (X : List Char) (hX : headBad X) : parsePH X = none := by
  rcases hX with rfl | ⟨d, t, rfl, hd, _⟩
  · rfl
  · simp only [parsePH]
    rw [if_neg (fun h' => by rw [nameStart_nameChar d h'] at hd; cases hd)]

/-- A list with a bad head never begins with a closing brace. -/
theorem headBad_sw (X : List Char) (hX : headBad X) :
    startsWithChars X ['}'] = false := by
  rcases hX with rfl | ⟨d, t, rfl, _, hne⟩
  · rfl
  · rw [sw_single]
    exact decide_eq_false hne

/-- Dropping the name class across an append whose right part has a bad
head either stops inside the left part or consumes it entirely. -/
theorem dropWhile_append_bad (w X : List Char) (hX : headBad X) :
    (w ++ X).dropWhile isNameChar =
      if (w.all isNameChar) = true then X else w.dropWhile isNameChar ++ X := by
  induction w with
  | nil =>
    simp only [List.nil_append, List.all_nil, if_pos rfl]
    rcases hX with rfl | ⟨d, t, rfl, hd, _⟩
    · rfl
    · simp [List.dropWhile_cons, hd]
  | cons a w' ihw =>
    simp only [List.cons_append, List.dropWhile_cons, List.all_cons]
    by_cases ha : isNameChar a = true
    · simp only [ha, if_true, Bool.true_and, ihw]
    · simp [ha]

/-- Whether a placeholder parse fails is decided before the first
character that can neither continue a name nor close it; appends beyond
that point do not change failure. -/
theorem parse_none_transfer (pre X Y : List Char) (hX : headBad X)
    (hY : headBad Y) :
    (parsePH (pre ++ X) = none ↔ parsePH (pre ++ Y) = none) := by
  rcases pre with _ | ⟨c, pre'⟩
  · simp only [List.nil_append]
    rw [parsePH_headBad X hX, parsePH_headBad Y hY]
  · simp only [List.cons_append, parsePH]
    by_cases hc : isNameStart c = true
    · rw [if_pos hc, if_pos hc]
      rw [dropWhile_append_bad pre' X hX, dropWhile_append_bad pre' Y hY]
      by_cases hall : (pre'.all isNameChar) = true
      · rw [if_pos hall, if_pos hall, headBad_sw X hX, headBad_sw Y hY]
        simp
      · rw [if_neg hall, if_neg hall]
        have hne : pre'.dropWhile isNameChar ≠ [] := by
          intro hnil
          apply hall
          rw [List.all_eq_true]
          exact List.dropWhile_eq_nil_iff.mp hnil
        obtain ⟨d, dr, hdd⟩ := List.exists_cons_of_ne_nil hne
        rw [hdd]
        simp only [List.cons_append, sw_single]
        by_cases hd : d = '}'
        · rw [if_pos (by simp [hd]), if_pos (by simp [hd])]
          simp
        · rw [if_neg (by simp [hd]), if_neg (by simp [hd])]
    · rw [if_neg hc, if_neg hc]

/-- Escape freedom is preserved when the first character is removed. -/
theorem noEscape_cons (c : Char) (rest : List Char)
    (h : noEscape (c :: rest) = true) : noEscape rest = true := by
  by_cases hc : (c = '\\' ∧ startsWithChars rest ['$', '{'] = true)
  · unfold noEscape at h
    rw [if_pos hc] at h
    exact absurd h Bool.false_ne_true
  · unfold noEscape at h
    rw [if_neg hc] at h
    exact h

/-- Escape freedom is inherited by any suffix. -/
theorem noEscape_append (a b : List Char) (h : noEscape (a ++ b) = true) :
    noEscape b = true := by
  induction a with
  | nil => exact h
  | cons c a' iha => exact iha (noEscape_cons c (a' ++ b) h)

/-- After a backslash in an escape-free input, no dollar-brace follows. -/
theorem noEscape_head (rest : List Char)
    (h : noEscape ('\\' :: rest) = true) :
    startsWithChars rest ['$', '{'] = false := by
  cases hsw : startsWithChars rest ['$', '{'] with
  | false => rfl
  | true =>
    have hcond : ('\\' : Char) = '\\' ∧ startsWithChars rest ['$', '{'] = true :=
      ⟨rfl, hsw⟩
    unfold noEscape at h
    rw [if_pos hcond] at h
    exact absurd h Bool.false_ne_true

/-- Unpacking a clean placeholder value: nonempty, inert head, and no
match-relevant characters anywhere. -/
theorem cleanValue_shape (v : List Char) (h : cleanValue v = true) :
    ∃ c w, v = c :: w ∧ isNameChar c = false ∧ c ≠ '}' ∧
      ∀ x ∈ v, x ≠ '$' ∧ x ≠ '\\' ∧ x ≠ '{' := by
  cases v with
  | nil => exact absurd h (by simp [cleanValue])
  | cons c w =>
    simp only [cleanValue, Bool.and_eq_true, Bool.not_eq_true', bne_iff_ne,
      List.all_eq_true] at h
    refine ⟨c, w, rfl, h.1.1, h.1.2, fun x hx => ?_⟩
    have := h.2 x hx
    simp only [Bool.and_eq_true, bne_iff_ne] at this
    exact ⟨this.1.1, this.1.2, this.2⟩

/-- Values returned by placeholder lookup in a clean mapping are clean. -/
theorem lookupPH_clean (ph : List (List Char × List Char)) (nm v : List Char)
    (hph : cleanPH ph = true) (h : lookupPH ph nm = some v) :
    cleanValue v = true := by
  simp only [lookupPH] at h
  cases hf : ph.find? (fun p => p.1 == nm) with
  | none => rw [hf] at h; cases h
  | some p =>
    rw [hf] at h
    injection h with h'
    have hmem := List.mem_of_find?_eq_some hf
    have := List.all_eq_true.mp hph p hmem
    rw [← h']
    exact this

/-- Prepending characters that can start neither an escape nor a match
preserves inertness at every fuel. -/
theorem inert_append_plain (ph : List (List Char × List Char))
    (v t : List Char) (hv : ∀ c ∈ v, c ≠ '\\' ∧ c ≠ '$')
    (ht : ∀ g, inertF ph g t = true) : ∀ g, inertF ph g (v ++ t) = true := by
  induction v with
  | nil => exact ht
  | cons c v' ihv =>
    intro g
    cases g with
    | zero => rfl
    | succ g' =>
      have hc := hv c (List.mem_cons_self _ _)
      rw [List.cons_append,
        inertF_other ph g' c (v' ++ t) (fun h => hc.1 h.1) (fun h => hc.2 h.1)]
      exact ihv (fun x hx => hv x (List.mem_cons_of_mem _ hx)) g'

/-- The scanner copies a run of plain characters verbatim, burning one
unit of fuel per character. -/
theorem scan_literal_prefix (ph : List (List Char × List Char)) :
    ∀ pre suf f, (∀ c ∈ pre, plainChar c = true) → (pre ++ suf).length < f →
      scanF ph f (pre ++ suf) = pre ++ scanF ph (f - pre.length) suf := by
  intro pre
  induction pre with
  | nil => intro suf f _ _; simp
  | cons c pre' ihp =>
    intro suf f hpre hf
    cases f with
    | zero => simp at hf
    | succ f' =>
      have hc := hpre c (List.mem_cons_self _ _)
      simp only [plainChar, Bool.and_eq_true, bne_iff_ne] at hc
      rw [List.cons_append,
        scanF_other ph f' c (pre' ++ suf) (fun h => hc.1 h.1) (fun h => hc.2 h.1),
        ihp suf f' (fun x hx => hpre x (List.mem_cons_of_mem _ hx))
          (by simp only [List.length_append, List.length_cons] at hf ⊢; omega)]
      simp [Nat.succ_sub_succ]

/-- The head of a dropWhile residue fails the predicate. -/
theorem dropWhile_head_neg (p : Char → Bool) :
    ∀ (l : List Char) (d : Char) (t : List Char),
      List.dropWhile p l = d :: t → p d = false := by
  intro l
  induction l with
  | nil => intro d t h; cases h
  | cons a l' ihl =>
    intro d t h
    rw [List.dropWhile_cons] at h
    by_cases ha : p a = true
    · rw [if_pos ha] at h
      exact ihl d t h
    · rw [if_neg ha] at h
      injection h with h1 h2
      subst h1
      exact Bool.eq_false_iff.mpr ha

/-- A non-plain character is the backslash or the dollar sign. -/
theorem plainChar_false (d : Char) (hd : plainChar d = false) :
    d = '\\' ∨ d = '$' := by
  simp only [plainChar, Bool.and_eq_false_iff, bne_eq_false_iff_eq] at hd
  exact hd

/-- Output-head analysis: starting the scanner at the first non-plain
character of an escape-free input yields output whose head can neither
continue a placeholder name nor close one. -/
theorem scan_headBad (ph : List (List Char × List Char)) (f : Nat)
    (suf : List Char) (hph : cleanPH ph = true) (hesc : noEscape suf = true)
    (hs : suf = [] ∨ ∃ d t, suf = d :: t ∧ plainChar d = false)
    (hf : suf.length < f) : headBad (scanF ph f suf) := by
  cases f with
  | zero => exact absurd hf (Nat.not_lt_zero _)
  | succ f' =>
    rcases hs with rfl | ⟨d, t, rfl, hd⟩
    · rw [scanF_nil]
      exact Or.inl rfl
    · rcases plainChar_false d hd with rfl | rfl
      · have hsw := noEscape_head t hesc
        rw [scanF_other ph f' '\\' t
          (fun h => by rw [hsw] at h; exact Bool.false_ne_true h.2)
          (fun h => absurd h.1 (by decide))]
        exact Or.inr ⟨'\\', _, rfl, by decide, by decide⟩
      · by_cases h2 : startsWithChars t ['{'] = true
        · obtain ⟨r2, rfl⟩ := sw_single_inv '{' t h2
          cases hp : parsePH r2 with
          | some pr =>
            obtain ⟨nm, r3⟩ := pr
            cases hv : lookupPH ph nm with
            | some v =>
              rw [scanF_known ph f' r2 nm r3 v hp hv]
              obtain ⟨vc, vr, rfl, hvc, hvb, hall⟩ :=
                cleanValue_shape v (lookupPH_clean ph nm v hph hv)
              exact Or.inr ⟨vc, vr ++ scanF ph f' r3, by simp, hvc, hvb⟩
            | none =>
              rw [scanF_unknown ph f' r2 nm r3 hp hv]
              exact Or.inr ⟨'$', _, rfl, by decide, by decide⟩
          | none =>
            rw [scanF_pnone ph f' r2 hp]
            exact Or.inr ⟨'$', _, rfl, by decide, by decide⟩
        · rw [scanF_other ph f' '$' t (fun h => absurd h.1 (by decide))
            (fun h => h2 h.2)]
          exact Or.inr ⟨'$', _, rfl, by decide, by decide⟩

/-- Scanning preserves parse failure: if no placeholder match starts at
the current position of an escape-free input, none starts there in the
scanned output either. -/
theorem parsePH_none_scan (ph : List (List Char × List Char)) (f : Nat)
    (r2 : List Char) (hph : cleanPH ph = true) (hesc : noEscape r2 = true)
    (hp : parsePH r2 = none) (hf : r2.length < f) :
    parsePH (scanF ph f r2) = none := by
  have hdec : r2.takeWhile plainChar ++ r2.dropWhile plainChar = r2 :=
    List.takeWhile_append_dropWhile plainChar r2
  have hpre : ∀ c ∈ r2.takeWhile plainChar, plainChar c = true :=
    fun c hc => List.mem_takeWhile_imp hc
  have hsufshape : r2.dropWhile plainChar = [] ∨
      ∃ d t, r2.dropWhile plainChar = d :: t ∧ plainChar d = false := by
    cases hsd : r2.dropWhile plainChar with
    | nil => exact Or.inl rfl
    | cons d t => exact Or.inr ⟨d, t, rfl, dropWhile_head_neg plainChar r2 d t hsd⟩
  have hlen : (r2.takeWhile plainChar ++ r2.dropWhile plainChar).length < f := by
    rw [hdec]
    exact hf
  have hscan : scanF ph f r2 =
      r2.takeWhile plainChar ++
        scanF ph (f - (r2.takeWhile plainChar).length) (r2.dropWhile plainChar) := by
    conv_lhs => rw [← hdec]
    exact scan_literal_prefix ph _ _ f hpre hlen
  have hesuf : noEscape (r2.dropWhile plainChar) = true :=
    noEscape_append _ _ (by rw [hdec]; exact hesc)
  have hfsuf : (r2.dropWhile plainChar).length <
      f - (r2.takeWhile plainChar).length := by
    have := congrArg List.length hdec
    simp only [List.length_append] at this
    omega
  have hbadsuf : headBad (r2.dropWhile plainChar) := by
    rcases hsufshape with h0 | ⟨d, t, hdt, hd⟩
    · exact Or.inl h0
    · refine Or.inr ⟨d, t, hdt, ?_, ?_⟩
      · rcases plainChar_false d hd with rfl | rfl <;> decide
      · rcases plainChar_false d hd with rfl | rfl <;> decide
  have hbadout : headBad
      (scanF ph (f - (r2.takeWhile plainChar).length) (r2.dropWhile plainChar)) :=
    scan_headBad ph _ _ hph hesuf hsufshape hfsuf
  rw [hscan]
  exact (parse_none_transfer _ _ _ hbadsuf hbadout).mp (by rw [hdec]; exact hp)

/-- If the scanner output begins with an opening brace, so did the
input: no scanner emission puts a brace first. -/
theorem scan_head_brace (ph : List (List Char × List Char)) (f : Nat)
    (s : List Char) (hph : cleanPH ph = true) (hf : s.length < f)
    (h : startsWithChars (scanF ph f s) ['{'] = true) :
    startsWithChars s ['{'] = true := by
  cases f with
  | zero => exact absurd hf (Nat.not_lt_zero _)
  | succ f' =>
    rcases s with _ | ⟨c, rest⟩
    · rw [scanF_nil] at h
      exact absurd h (by decide)
    · by_cases h1 : (c = '\\' ∧ startsWithChars rest ['$', '{'] = true)
      · obtain ⟨rfl, hsw⟩ := h1
        obtain ⟨r, rfl⟩ := sw_db_inv rest hsw
        rw [scanF_esc ph f' r, sw_single] at h
        exact absurd h (by decide)
      · by_cases h2 : (c = '$' ∧ startsWithChars rest ['{'] = true)
        · obtain ⟨rfl, hsw⟩ := h2
          obtain ⟨r2, rfl⟩ := sw_single_inv '{' rest hsw
          cases hp : parsePH r2 with
          | some pr =>
            obtain ⟨nm, r3⟩ := pr
            cases hv : lookupPH ph nm with
            | some v =>
              rw [scanF_known ph f' r2 nm r3 v hp hv] at h
              obtain ⟨vc, vr, rfl, hvc, hvb, hall⟩ :=
                cleanValue_shape v (lookupPH_clean ph nm v hph hv)
              have hvb2 := hall vc (List.mem_cons_self _ _)
              rw [List.cons_append, sw_single] at h
              exact absurd (of_decide_eq_true h) hvb2.2.2
            | none =>
              rw [scanF_unknown ph f' r2 nm r3 hp hv, sw_single] at h
              exact absurd h (by decide)
          | none =>
            rw [scanF_pnone ph f' r2 hp, sw_single] at h
            exact absurd h (by decide)
        · rw [scanF_other ph f' c rest h1 h2, sw_single] at h
          have hc := of_decide_eq_true h
          subst hc
          rw [sw_single]
          decide

/-- If the scanner output begins with a dollar-brace, so did the input,
provided the input is escape-free and the placeholder values are clean. -/
theorem scan_head_db (ph : List (List Char × List Char)) (f : Nat)
    (s : List Char) (hph : cleanPH ph = true) (hesc : noEscape s = true)
    (hf : s.length < f)
    (h : startsWithChars (scanF ph f s) ['$', '{'] = true) :
    startsWithChars s ['$', '{'] = true := by
  cases f with
  | zero => exact absurd hf (Nat.not_lt_zero _)
  | succ f' =>
    rcases s with _ | ⟨c, rest⟩
    · rw [scanF_nil] at h
      exact absurd h (by decide)
    · by_cases h1 : (c = '\\' ∧ startsWithChars rest ['$', '{'] = true)
      · obtain ⟨rfl, hsw⟩ := h1
        have hne := noEscape_head rest hesc
        rw [hne] at hsw
        exact absurd hsw Bool.false_ne_true
      · by_cases h2 : (c = '$' ∧ startsWithChars rest ['{'] = true)
        · obtain ⟨rfl, hsw⟩ := h2
          obtain ⟨r2, rfl⟩ := sw_single_inv '{' rest hsw
          simp [startsWithChars, sw_nil]
        · rw [scanF_other ph f' c rest h1 h2] at h
          simp only [startsWithChars, Bool.and_eq_true, decide_eq_true_eq] at h
          obtain ⟨rfl, hq⟩ := h
          have hb := scan_head_brace ph f' rest hph
            (by simp only [List.length_cons] at hf; omega) hq
          exact absurd ⟨rfl, hb⟩ h2

/-- Core of the idempotence argument: on an escape-free input with clean
placeholder values, the scanner's output is inert at every fuel — a
second pass has nothing left to rewrite.  Induction is on a bound `n` for
the input length. -/
theorem scanF_inert (ph : List (List Char × List Char)) (hph : cleanPH ph = true) :
    ∀ n s f, s.length ≤ n → s.length < f → noEscape s = true →
      ∀ g, inertF ph g (scanF ph f s) = true := by
  intro n
  induction n with
  | zero =>
    intro s f hn hf _ g
    have hs : s = [] := List.eq_nil_of_length_eq_zero (Nat.le_zero.mp hn)
    subst hs
    cases f with
    | zero => exact absurd hf (Nat.not_lt_zero _)
    | succ f' =>
      rw [scanF_nil]
      exact inertF_nil ph g
  | succ n ihn =>
    intro s f hn hf hesc g
    rcases s with _ | ⟨c, rest⟩
    · cases f with
      | zero => exact absurd hf (Nat.not_lt_zero _)
      | succ f' =>
        rw [scanF_nil]
        exact inertF_nil ph g
    · cases f with
      | zero => exact absurd hf (Nat.not_lt_zero _)
      | succ f' =>
        have hfr : rest.length < f' := by
          simp only [List.length_cons] at hf
          omega
        have hnr : rest.length ≤ n := by
          simp only [List.length_cons] at hn
          omega
        by_cases h1 : (c = '\\' ∧ startsWithChars rest ['$', '{'] = true)
        · obtain ⟨rfl, hsw⟩ := h1
          have hne := noEscape_head rest hesc
          rw [hne] at hsw
          exact absurd hsw Bool.false_ne_true
        · by_cases h2 : (c = '$' ∧ startsWithChars rest ['{'] = true)
          · obtain ⟨rfl, hsw⟩ := h2
            obtain ⟨r2, rfl⟩ := sw_single_inv '{' rest hsw
            have hescr2 : noEscape r2 = true :=
              noEscape_cons _ _ (noEscape_cons _ _ hesc)
            have hfr2 : r2.length < f' := by
              simp only [List.length_cons] at hfr
              omega
            have hr2n : r2.length + 1 ≤ n := by
              simp only [List.length_cons] at hnr
              omega
            cases hp : parsePH r2 with
            | some pr =>
              obtain ⟨nm, r3⟩ := pr
              obtain ⟨c0, w0, hnm, hc0, hw0, hr2⟩ := parsePH_sound r2 nm r3 hp
              have hlen3 : r3.length + 2 ≤ r2.length := by
                rw [hr2, hnm]
                simp [List.length_append]
              have hescr3 : noEscape r3 = true := by
                have h' : noEscape (nm ++ '}' :: r3) = true := by
                  rw [← hr2]
                  exact hescr2
                exact noEscape_cons _ _ (noEscape_append nm _ h')
              have hnr3 : r3.length ≤ n := by omega
              have hfr3 : r3.length < f' := by omega
              cases hv : lookupPH ph nm with
              | some v =>
                rw [scanF_known ph f' r2 nm r3 v hp hv]
                obtain ⟨vc, vr, hveq, hvc, hvb, hall⟩ :=
                  cleanValue_shape v (lookupPH_clean ph nm v hph hv)
                refine inert_append_plain ph v _ (fun x hx => ?_)
                  (fun g' => ihn r3 f' hnr3 hfr3 hescr3 g') g
                have hx' := hall x hx
                exact ⟨hx'.2.1, hx'.1⟩
              | none =>
                rw [scanF_unknown ph f' r2 nm r3 hp hv]
                cases g with
                | zero => exact inertF_zero ph _
                | succ g' =>
                  have hpc : parsePH (nm ++ '}' :: scanF ph f' r3) =
                      some (nm, scanF ph f' r3) := by
                    rw [hnm, List.cons_append]
                    exact parsePH_complete c0 w0 _ hc0 hw0
                  rw [inertF_psome ph g' (nm ++ '}' :: scanF ph f' r3) nm
                    (scanF ph f' r3) hpc, hv]
                  simp only [Option.isNone_none, Bool.true_and]
                  exact ihn r3 f' hnr3 hfr3 hescr3 g'
            | none =>
              rw [scanF_pnone ph f' r2 hp]
              cases f' with
              | zero => exact absurd hfr2 (Nat.not_lt_zero _)
              | succ f'' =>
                have hfr2' : r2.length < f'' := by
                  simp only [List.length_cons] at hf
                  omega
                rw [scanF_other ph f'' '{' r2 (fun h => absurd h.1 (by decide))
                  (fun h => absurd h.1 (by decide))]
                cases g with
                | zero => exact inertF_zero ph _
                | succ g' =>
                  have hpno : parsePH (scanF ph f'' r2) = none :=
                    parsePH_none_scan ph f'' r2 hph hescr2 hp hfr2'
                  rw [inertF_pnone ph g' (scanF ph f'' r2) hpno]
                  cases g' with
                  | zero => exact inertF_zero ph _
                  | succ g'' =>
                    rw [inertF_other ph g'' '{' (scanF ph f'' r2)
                      (fun h => absurd h.1 (by decide))
                      (fun h => absurd h.1 (by decide))]
                    exact ihn r2 f'' (by omega) hfr2' hescr2 g''
          · rw [scanF_other ph f' c rest h1 h2]
            have hescr : noEscape rest = true := noEscape_cons c rest hesc
            by_cases hcb : c = '\\'
            · subst hcb
              have hsw : startsWithChars rest ['$', '{'] = false :=
                noEscape_head rest hesc
              cases g with
              | zero => exact inertF_zero ph _
              | succ g' =>
                have hPf : startsWithChars (scanF ph f' rest) ['$', '{'] = false := by
                  cases hx : startsWithChars (scanF ph f' rest) ['$', '{'] with
                  | false => rfl
                  | true =>
                    have hcon := scan_head_db ph f' rest hph hescr hfr hx
                    rw [hsw] at hcon
                    exact absurd hcon Bool.false_ne_true
                rw [inertF_other ph g' '\\' (scanF ph f' rest)
                  (fun h => by rw [hPf] at h; exact absurd h.2 Bool.false_ne_true)
                  (fun h => absurd h.1 (by decide))]
                exact ihn rest f' hnr hfr hescr g'
            · by_cases hcd : c = '$'
              · subst hcd
                have hsw : startsWithChars rest ['{'] = false := by
                  cases hx : startsWithChars rest ['{'] with
                  | false => rfl
                  | true => exact absurd ⟨rfl, hx⟩ h2
                cases g with
                | zero => exact inertF_zero ph _
                | succ g' =>
                  have hQf : startsWithChars (scanF ph f' rest) ['{'] = false := by
                    cases hx : startsWithChars (scanF ph f' rest) ['{'] with
                    | false => rfl
                    | true =>
                      have hcon := scan_head_brace ph f' rest hph hfr hx
                      rw [hsw] at hcon
                      exact absurd hcon Bool.false_ne_true
                  rw [inertF_other ph g' '$' (scanF ph f' rest)
                    (fun h => absurd h.1 (by decide))
                    (fun h => by rw [hQf] at h; exact absurd h.2 Bool.false_ne_true)]
                  exact ihn rest f' hnr hfr hescr g'
              · exact inert_append_plain ph [c] (scanF ph f' rest)
                  (fun x hx => by
                    rcases List.mem_singleton.mp hx with rfl
                    exact ⟨hcb, hcd⟩)
                  (fun g' => ihn rest f' hnr hfr hescr g') g

/-- An escape sequence is never inert: the next pass would consume it. -/
theorem inertF_esc (ph : List (List Char × List Char)) (g : Nat) (r : List Char) :
    inertF ph (g + 1) ('\\' :: '$' :: '{' :: r) = false := by
  have hsw : startsWithChars ('$' :: '{' :: r) ['$', '{'] = true := by
    simp [startsWithChars, sw_nil]
  simp only [inertF]
  rw [if_pos ⟨by trivial, hsw⟩]

/-- On an inert input the scanner is the identity. -/
theorem inert_scan_id (ph : List (List Char × List Char)) :
    ∀ n s f, s.length ≤ n → s.length < f → inertF ph f s = true →
      scanF ph f s = s := by
  intro n
  induction n with
  | zero =>
    intro s f hn hf _
    have hs : s = [] := List.eq_nil_of_length_eq_zero (Nat.le_zero.mp hn)
    subst hs
    cases f with
    | zero => exact absurd hf (Nat.not_lt_zero _)
    | succ f' => exact scanF_nil ph f'
  | succ n ihn =>
    intro s f hn hf hin
    rcases s with _ | ⟨c, rest⟩
    · cases f with
      | zero => exact absurd hf (Nat.not_lt_zero _)
      | succ f' => exact scanF_nil ph f'
    · cases f with
      | zero => exact absurd hf (Nat.not_lt_zero _)
      | succ f' =>
        have hfr : rest.length < f' := by
          simp only [List.length_cons] at hf
          omega
        have hnr : rest.length ≤ n := by
          simp only [List.length_cons] at hn
          omega
        by_cases h1 : (c = '\\' ∧ startsWithChars rest ['$', '{'] = true)
        · obtain ⟨rfl, hsw⟩ := h1
          obtain ⟨r, rfl⟩ := sw_db_inv rest hsw
          rw [inertF_esc ph f' r] at hin
          exact absurd hin Bool.false_ne_true
        · by_cases h2 : (c = '$' ∧ startsWithChars rest ['{'] = true)
          · obtain ⟨rfl, hsw⟩ := h2
            obtain ⟨r2, rfl⟩ := sw_single_inv '{' rest hsw
            cases hp : parsePH r2 with
            | some pr =>
              obtain ⟨nm, r3⟩ := pr
              rw [inertF_psome ph f' r2 nm r3 hp] at hin
              obtain ⟨hiso, hin3⟩ := (Bool.and_eq_true _ _).mp hin
              cases hv : lookupPH ph nm with
              | some v =>
                rw [hv] at hiso
                exact absurd hiso (by simp)
              | none =>
                obtain ⟨c0, w0, hnm, hc0, hw0, hr2⟩ := parsePH_sound r2 nm r3 hp
                have hlen3 : r3.length + 2 ≤ r2.length := by
                  rw [hr2, hnm]
                  simp [List.length_append]
                have hnr3 : r3.length ≤ n := by
                  simp only [List.length_cons] at hnr
                  omega
                have hfr3 : r3.length < f' := by
                  simp only [List.length_cons] at hfr
                  omega
                rw [scanF_unknown ph f' r2 nm r3 hp hv,
                  ihn r3 f' hnr3 hfr3 hin3, ← hr2]
            | none =>
              rw [inertF_pnone ph f' r2 hp] at hin
              rw [scanF_pnone ph f' r2 hp,
                ihn ('{' :: r2) f' hnr hfr hin]
          · rw [scanF_other ph f' c rest h1 h2]
            rw [inertF_other ph f' c rest h1 h2] at hin
            rw [ihn rest f' hnr hfr hin]

/-- Idempotence of `_substitute_placeholders` on escape-free inputs with
clean placeholder values: the first pass leaves an inert string, so the
second pass copies it verbatim. -/
theorem substitutePlaceholders_idem (ph : List (List Char × List Char))
    (text : List Char) (hesc : noEscape text = true) (hph : cleanPH ph = true) :
    substitutePlaceholders ph (substitutePlaceholders ph text) =
      substitutePlaceholders ph text := by
  by_cases hcd : containsDollarBrace text = true
  · have hout : substitutePlaceholders ph text = scanF ph (text.length + 1) text := by
      unfold substitutePlaceholders
      rw [if_pos hcd]
    have hinert : ∀ g, inertF ph g (scanF ph (text.length + 1) text) = true :=
      fun g => scanF_inert ph hph text.length text (text.length + 1) le_rfl
        (Nat.lt_succ_self _) hesc g
    rw [hout]
    by_cases hcd2 : containsDollarBrace (scanF ph (text.length + 1) text) = true
    · unfold substitutePlaceholders
      rw [if_pos hcd2]
      exact inert_scan_id ph (scanF ph (text.length + 1) text).length _ _ le_rfl
        (Nat.lt_succ_self _) (hinert _)
    · unfold substitutePlaceholders
      rw [if_neg hcd2]
  · unfold substitutePlaceholders
    rw [if_neg hcd, if_neg hcd]

/-- C7 counterexample: placeholder substitution is not idempotent on every
input string.  For the file `x.yaml` the escaped field value
`\$\x7bFILENAME\x7d` resolves in one pass to the literal `$\x7bFILENAME\x7d`
(escape-awareness), but a second pass then substitutes it away to
`x.yaml`, so applying the substitution twice differs from applying it
once. -/
theorem placeholder_substitution_not_idempotent_cex :
    substitutePlaceholders phXYaml escTest = "${FILENAME}".data ∧
    substitutePlaceholders phXYaml (substitutePlaceholders phXYaml escTest) =
      "x.yaml".data ∧
    substitutePlaceholders phXYaml (substitutePlaceholders phXYaml escTest) ≠
      substitutePlaceholders phXYaml escTest := by
  decide

/-- C7 (corrected): placeholder substitution by
`MetadataContainer._substitute_placeholders` is escape-aware — the field
value `\$\x7bFILENAME\x7d` in a file named `x.yaml` resolves to the
literal `$\x7bFILENAME\x7d`, not to `x.yaml` — and it is idempotent on
every input string that contains no escape sequence `\$\x7b`, provided
every placeholder value is clean (nonempty, free of `$`, backslash and
opening brace, not starting with a name character or closing brace), as
the values built by `apply_placeholders` are.  Unrestricted idempotence
fails: an escaped placeholder is substituted by a second pass (see the
counterexample). -/
theorem placeholder_substitution_amended (ph : List (List Char × List Char))
    (text : List Char) (hesc : noEscape text = true) (hph : cleanPH ph = true) :
    substitutePlaceholders ph (substitutePlaceholders ph text) =
        substitutePlaceholders ph text ∧
    substitutePlaceholders phXYaml escTest = "${FILENAME}".data ∧
    substitutePlaceholders phXYaml escTest ≠ "x.yaml".data :=
  ⟨substitutePlaceholders_idem ph text hesc hph, by decide, by decide⟩

/-- Witness for C7 at a concrete escape-free input containing a known
placeholder. -/
theorem placeholder_substitution_amended_witness :
    noEscape "a ${FILENAME} b".data = true ∧ cleanPH phXYaml = true ∧
    substitutePlaceholders phXYaml
        (substitutePlaceholders phXYaml "a ${FILENAME} b".data) =
      substitutePlaceholders phXYaml "a ${FILENAME} b".data :=
  ⟨by decide, by decide,
    (placeholder_substitution_amended phXYaml "a ${FILENAME} b".data
      (by decide) (by decide)).1⟩
